import Mathlib

/-!
# Verification of the `lp-model` package

Shallow embedding of the `lp-model` JavaScript package (variables,
canonical expressions, constraints, the CPLEX-LP text writer and the
grammar-driven reader, and the three solver bridges), together with
theorems settling the frozen claims about it.

JavaScript numbers are modelled as `ℚ`; JavaScript `Map`s are modelled
as insertion-ordered association lists; plain objects used as maps are
modelled as insertion-ordered association lists whose enumeration order
puts array-index keys (canonical numeric strings) first in ascending
numeric order, matching the ECMAScript own-property ordering that
`for ... in` follows.
-/

namespace LPModel

/-! ## Insertion-ordered string-keyed maps (JS `Map` and plain objects) -/

/-- Lookup in an insertion-ordered association list (`Map.get`). -/
def mGet {β : Type} (l : List (String × β)) (k : String) : Option β :=
  match l with
  | [] => none
  | (a, b) :: t => if a = k then some b else mGet t k

/-- Key-presence test (`Map.has`). -/
def mHas {β : Type} (l : List (String × β)) (k : String) : Bool :=
  (mGet l k).isSome

/-- `Map.set` semantics: update in place if the key exists (keeping its
position), otherwise append at the end. -/
def mSet {β : Type} (l : List (String × β)) (k : String) (b : β) : List (String × β) :=
  match l with
  | [] => [(k, b)]
  | (a, c) :: t => if a = k then (a, b) :: t else (a, c) :: mSet t k b

/-- Update the value at a key in place (used for accumulating into an
already-present entry of a JS object). -/
def mAdjust {β : Type} (l : List (String × β)) (k : String) (f : β → β) :
    List (String × β) :=
  match l with
  | [] => []
  | (a, c) :: t => if a = k then (a, f c) :: t else (a, c) :: mAdjust t k f

/-! ### JS object own-property enumeration order

A string key that is a canonical array index (all digits, no leading
zero, value below `2^32 - 1`) is enumerated before all other keys, in
ascending numeric order; the remaining keys keep insertion order. -/

/-- Digits of a string read as a natural number, if all characters are
digits and the string is nonempty. -/
def digitsVal : List Char → Option ℕ
  | [] => none
  | [c] => if c.isDigit then some (c.toNat - '0'.toNat) else none
  | c :: t =>
    if c.isDigit then
      match digitsVal t with
      | some v => some ((c.toNat - '0'.toNat) * 10 ^ t.length + v)
      | none => none
    else none

/-- `some n` when the string is the canonical decimal numeral of an
ECMAScript array index `n < 2^32 - 1`. -/
def isArrayIndex (s : String) : Option ℕ :=
  match s.data with
  | [] => none
  | c :: t =>
    if c = '0' ∧ t ≠ [] then none
    else
      match digitsVal (c :: t) with
      | some v => if v < 2 ^ 32 - 1 then some v else none
      | none => none

/-- Insertion sort (stable) by array-index value. -/
def idxInsert {β : Type} (p : String × β) (l : List (String × β)) :
    List (String × β) :=
  match l with
  | [] => [p]
  | q :: t =>
    if ((isArrayIndex p.1).getD 0) < ((isArrayIndex q.1).getD 0) then p :: q :: t
    else q :: idxInsert p t

def idxSort {β : Type} : List (String × β) → List (String × β)
  | [] => []
  | p :: t => idxInsert p (idxSort t)

/-- Enumeration order of a JS object's own string keys: array-index keys
first, ascending, then the rest in insertion order. -/
def enumOrder {β : Type} (l : List (String × β)) : List (String × β) :=
  idxSort (l.filter fun p => (isArrayIndex p.1).isSome) ++
    l.filter fun p => ¬ (isArrayIndex p.1).isSome

/-! ## Core data model -/

/-- A bound value: a number, or one of the two infinity sentinels
(the JS strings `"-infinity"` / `"+infinity"`). -/
inductive BVal
  | num (q : ℚ)
  | ninf
  | pinf
deriving DecidableEq, Repr

/-- A decision variable (class `Var`).  `value` is the solution field. -/
structure Var where
  name : String
  lb : BVal
  ub : BVal
  vtype : String
  value : Option ℚ := none
deriving DecidableEq, Repr

/-- A term of a canonical expression: `[coeff, var]` or
`[coeff, var1, var2]`.  The quadratic slots hold what
`this.variables.get(name)` returned, hence `Option Var`. -/
inductive CTerm
  | lin (c : ℚ) (v : Var)
  | quad (c : ℚ) (v1 v2 : Option Var)
deriving DecidableEq, Repr

/-- A canonical expression `[constant, ...terms]`. -/
structure CExpr where
  cst : ℚ
  terms : List CTerm
deriving DecidableEq, Repr

/-- A constraint (class `Constr`), with its solution fields. -/
structure Constr where
  lhs : CExpr
  comparison : String
  rhs : ℚ
  primal : Option ℚ := none
  dual : Option ℚ := none
deriving DecidableEq, Repr

structure Objective where
  expression : CExpr
  sense : String
deriving DecidableEq, Repr

/-- A model `status` value: the HiGHS and jsLPSolver decoders store a
string, the glpk.js decoder stores the raw numeric status code. -/
inductive SVal
  | str (s : String)
  | num (q : ℚ)
deriving DecidableEq, Repr

/-! Engine response shapes (the documented solution schemas). -/

structure HighsColumn where
  Primal : ℚ
deriving DecidableEq, Repr

structure HighsRow where
  Name : String
  Primal : ℚ
  Dual : Option ℚ
deriving DecidableEq, Repr

structure HighsSolution where
  Status : String
  Columns : List (String × HighsColumn)
  Rows : List HighsRow
deriving DecidableEq, Repr

structure GLPKResult where
  status : ℚ
  z : ℚ
  vars : List (String × ℚ)
  dual : Option (List (String × ℚ))
deriving DecidableEq, Repr

structure GLPKSolution where
  result : GLPKResult
deriving DecidableEq, Repr

/-- jsLPSolver returns a flat object `{feasible, result, bounded, ...}`
whose remaining keys are variable names. -/
structure JSLPSolution where
  feasible : Bool
  bounded : Bool
  result : ℚ
  vars : List (String × ℚ)
deriving DecidableEq, Repr

/-- The raw engine response stored in `this.solution`. -/
inductive RawSolution
  | highs (s : HighsSolution)
  | glpk (s : GLPKSolution)
  | jslp (s : JSLPSolution)
deriving DecidableEq, Repr

/-- The model aggregate (class `Model`). -/
structure Model where
  /-- embeds `this.variables` (a JS `Map`) -/
  vars : List (String × Var)
  constraints : List Constr
  objective : Objective
  varCount : ℕ
  solution : Option RawSolution
  status : Option SVal
  ObjVal : Option ℚ
deriving DecidableEq, Repr

/-- The constructor state of `Model`. -/
def Model.init : Model :=
  { vars := []
    constraints := []
    objective := { expression := { cst := 0, terms := [] }, sense := "MAXIMIZE" }
    varCount := 0
    solution := none
    status := none
    ObjVal := none }

/-! ## Expression canonicalizer (`Model.parseExpression`) -/

/-- An element of the flexible input format accepted by
`parseExpression`: a bare number, a bare `Var`, a `[coeff, var]` pair or
a `[coeff, var1, var2]` triple.  The `Option Var` slots model positions
where JS code can pass `undefined` (e.g. a failed `Map.get`); the
`instanceof Var` checks in the source reject those. -/
inductive EItem
  | num (c : ℚ)
  | varb (v : Var)
  | lin (c : ℚ) (v : Option Var)
  | quad (c : ℚ) (v1 v2 : Option Var)
deriving DecidableEq, Repr

/-- `combined[key][0] += coeff` works uniformly on pair and triple
entries. -/
def CTerm.addCoef (t : CTerm) (c : ℚ) : CTerm :=
  match t with
  | .lin c0 v => .lin (c0 + c) v
  | .quad c0 v1 v2 => .quad (c0 + c) v1 v2

def CTerm.coef : CTerm → ℚ
  | .lin c _ => c
  | .quad c _ _ => c

/-- One step of the accumulation loop of `parseExpression`.  The
accumulator is the running constant together with the insertion-ordered
entries of the `combined` object (the `'constant'` key is modelled by
the separate constant component; no variable may be named `"constant"`
for the embedding to be exact). -/
def peStep (m : Model) (acc : ℚ × List (String × CTerm)) (item : EItem) :
    Except String (ℚ × List (String × CTerm)) :=
  match item with
  | .lin c v? =>
    match v? with
    | none => .error "Invalid term. Must be [coefficient, variable]."
    | some v =>
      if mHas acc.2 v.name then
        .ok (acc.1, mAdjust acc.2 v.name (·.addCoef c))
      else
        .ok (acc.1, acc.2 ++ [(v.name, .lin c v)])
  | .quad c v1? v2? =>
    match v1?, v2? with
    | some v1, some v2 =>
      let n1 := if v1.name > v2.name then v2.name else v1.name
      let n2 := if v1.name > v2.name then v1.name else v2.name
      let key := n1 ++ "_***_" ++ n2
      if mHas acc.2 key then
        .ok (acc.1, mAdjust acc.2 key (·.addCoef c))
      else
        .ok (acc.1, acc.2 ++ [(key, .quad c (mGet m.vars n1) (mGet m.vars n2))])
    | _, _ =>
      .error "Invalid quadratic term. Must be [coefficient, variable1, variable2]."
  | .varb v =>
    if mHas acc.2 v.name then
      .ok (acc.1, mAdjust acc.2 v.name (·.addCoef 1))
    else
      .ok (acc.1, acc.2 ++ [(v.name, .lin 1 v)])
  | .num c => .ok (acc.1 + c, acc.2)

/-- `Model.parseExpression`: accumulate all items, then emit
`[constant, ...nonzero terms]` in JS own-property enumeration order. -/
def parseExpression (m : Model) (expression : List EItem) : Except String CExpr := do
  let acc ← expression.foldlM (peStep m) ((0 : ℚ), [])
  .ok { cst := acc.1
        terms := ((enumOrder acc.2).filter fun p => p.2.coef ≠ 0).map (·.2) }

/-- The canonical expression viewed again as a JS array of items
(`[constant, ...terms]`), as `concat` in `addConstr` treats it. -/
def CExpr.items (e : CExpr) : List EItem :=
  .num e.cst :: e.terms.map fun t =>
    match t with
    | .lin c v => .lin c (some v)
    | .quad c v1 v2 => .quad c v1 v2

/-- Negation of every element of a canonical expression, as the
`rhs.map(...)` in `addConstr` performs it (coefficient sign flip for
pairs and triples, sign flip for the constant). -/
def CExpr.neg (e : CExpr) : CExpr :=
  { cst := -e.cst
    terms := e.terms.map fun t =>
      match t with
      | .lin c v => .lin (-c) v
      | .quad c v1 v2 => .quad (-c) v1 v2 }

/-! ## Model mutators -/

/-- JS `String.prototype.toUpperCase` (ASCII), character by character. -/
def strUpper (s : String) : String := ⟨s.data.map Char.toUpper⟩

/-- JS `String.prototype.toLowerCase` (ASCII), character by character. -/
def strLower (s : String) : String := ⟨s.data.map Char.toLower⟩

/-- `Model.setObjective`. -/
def setObjective (m : Model) (expression : List EItem) (sense : String) :
    Except String Model :=
  if ¬ (["MAXIMIZE", "MINIMIZE"].contains (strUpper sense)) then
    .error "Invalid sense. Must be one of MAXIMIZE or MINIMIZE."
  else do
    let e ← parseExpression m expression
    .ok { m with objective := { expression := e, sense := sense } }

/-- The right-hand side of `addConstr`: a plain number or an expression. -/
inductive RhsArg
  | num (q : ℚ)
  | expr (items : List EItem)
deriving Repr

/-- `Model.addConstr`: canonicalize both sides, negate the right side,
re-canonicalize the concatenation, move the constant to the right-hand
value, push and return the constraint. -/
def addConstr (m : Model) (lhs : List EItem) (comparison : String) (rhs : RhsArg) :
    Except String (Model × Constr) := do
  let lhsE ← parseExpression m lhs
  let rhsE ← match rhs with
    | .num q => pure ({ cst := q, terms := [] } : CExpr)
    | .expr items => parseExpression m items
  let comparison := if comparison = "==" then "=" else comparison
  if ¬ (["<=", "=", ">="].contains comparison) then
    .error "Invalid comparison operator. Must be one of <=, =, or >=."
  else do
    let combinedLhs := lhsE.items ++ rhsE.neg.items
    let finalLhs ← parseExpression m combinedLhs
    let finalRhs := -finalLhs.cst
    let constr : Constr :=
      { lhs := { finalLhs with cst := 0 }, comparison := comparison, rhs := finalRhs }
    .ok ({ m with constraints := m.constraints ++ [constr] }, constr)

/-- Options accepted by `addVar` (absent fields take the `Var`
constructor defaults). -/
structure VarOpts where
  lb : Option BVal := none
  ub : Option BVal := none
  vtype : Option String := none
  name : Option String := none
deriving Repr

/-- The `Var` constructor: validates the kind and the bounds. -/
def mkVar (lb ub : BVal) (vtype : String) (name : String) : Except String Var :=
  if ¬ (["CONTINUOUS", "BINARY", "INTEGER"].contains (strUpper vtype)) then
    .error "Invalid variable type."
  else if lb matches BVal.pinf then
    .error "Invalid lower bound."
  else if ub matches BVal.ninf then
    .error "Invalid upper bound."
  else
    .ok { name := name, lb := lb, ub := ub, vtype := strUpper vtype, value := none }

/-- The auto-naming loop of `addVar`: `Var<N>`, skipping taken names.
The fuel is one more than the number of existing variables, which by
pigeonhole always suffices. -/
def freshName (vars : List (String × Var)) : ℕ → ℕ → String × ℕ
  | 0, c => (s!"Var{c}", c + 1)
  | f + 1, c =>
    let n := s!"Var{c}"
    if mHas vars n then freshName vars f (c + 1) else (n, c + 1)

/-- `Model.addVar`. -/
def addVar (m : Model) (opts : VarOpts) : Except String (Model × Var) := do
  let (name, count) ←
    match opts.name with
    | none => pure (freshName m.vars (m.vars.length + 1) m.varCount)
    | some n =>
      if mHas m.vars n then
        .error s!"Variable name has already been used."
      else
        pure (n, m.varCount)
  let v ← mkVar (opts.lb.getD (.num 0)) (opts.ub.getD .pinf)
    (opts.vtype.getD "CONTINUOUS") name
  .ok ({ m with vars := mSet m.vars name v, varCount := count }, v)

/-- `Model.isQuadratic`. -/
def CExpr.hasQuad (e : CExpr) : Bool :=
  e.terms.any fun t => t matches CTerm.quad _ _ _

def isQuadratic (m : Model) : Bool :=
  m.objective.expression.hasQuad || m.constraints.any (·.lhs.hasQuad)

/-! ## Format writer (`toLPFormat`, from `write-lp-format.js`) -/

/-- The printed form of a JS number.  Integer values print as their
decimal numeral, exactly as JS prints them (for magnitudes below
`1e21`).  The source prints non-integer values in the JS shortest
round-trip float notation, which has no exact counterpart on `ℚ`; the
embedding prints a nominal `num/den` form there, and every theorem that
relies on printing assumes integer-valued data. -/
def printNum (q : ℚ) : String :=
  if q.den = 1 then toString q.num else toString q.num ++ "/" ++ toString q.den

/-- `term[1].name` where the slot can hold `undefined`; the JS code
would throw a `TypeError` in the `none` case, which no well-formed model
reaches. -/
def optName (v : Option Var) : String :=
  match v with
  | some v => v.name
  | none => "undefined"

/-- Rendering of one expression element (`expressionToString`'s map
function): `<coeff> <name>` for a pair, the doubled-coefficient bracket
form for a triple. -/
def termStr (t : CTerm) : String :=
  match t with
  | .lin c v => printNum c ++ " " ++ v.name
  | .quad c v1 v2 =>
    "[ " ++ printNum (c * 2) ++ " " ++ optName v1 ++ " * " ++ optName v2 ++ " ]/2"

/-- The writer's global regex replacement of `"+ -"` by `"- "`
(`.replace` with the `g` flag): left-to-right and non-overlapping. -/
def replacePM : List Char → List Char
  | '+' :: ' ' :: '-' :: t => '-' :: ' ' :: replacePM t
  | c :: t => c :: replacePM t
  | [] => []

/-- `expressionToString`: join the rendered elements with `" + "` and
collapse `"+ -"` runs. -/
def exprStr (pieces : List String) : String :=
  ⟨replacePM (String.intercalate " + " pieces).data⟩

/-- The elements of the objective line: the constant is omitted when it
is exactly zero, otherwise it is printed as a leading element. -/
def objPieces (e : CExpr) : List String :=
  (if e.cst = 0 then [] else [printNum e.cst]) ++ e.terms.map termStr

/-- A `Bounds` line for a variable whose bounds differ from the implicit
default `[0, +infinity)`; other variables are omitted. -/
def boundLine (p : String × Var) : Option String :=
  if p.2.lb ≠ BVal.num 0 ∨ p.2.ub ≠ BVal.pinf then
    some (" " ++
      (match p.2.lb with
       | .ninf => "-inf"
       | .num q => printNum q
       | .pinf => "+infinity") ++
      " <= " ++ p.1 ++ " <= " ++
      (match p.2.ub with
       | .pinf => "+inf"
       | .num q => printNum q
       | .ninf => "-infinity") ++ "\n")
  else none

/-- `toLPFormat`: serialize the model to the CPLEX LP text format. -/
def toLPFormat (m : Model) : String :=
  (if strUpper m.objective.sense = "MAXIMIZE" then "Maximize\n" else "Minimize\n") ++
  "obj: " ++ exprStr (objPieces m.objective.expression) ++ "\n" ++
  (if m.constraints.length > 0 then
    "Subject To\n" ++
      String.join ((m.constraints.enum.map fun ci =>
        " c" ++ toString (ci.1 + 1) ++ ": " ++
          exprStr (ci.2.lhs.terms.map termStr) ++ " " ++ ci.2.comparison ++ " " ++
          printNum ci.2.rhs ++ "\n"))
   else "") ++
  "Bounds\n" ++ String.join (m.vars.filterMap boundLine) ++
  (let generalVars := (m.vars.filter fun p => p.2.vtype = "INTEGER").map (·.1)
   if generalVars.length > 0 then
     "General\n " ++ String.intercalate " " generalVars ++ "\n"
   else "") ++
  (let binaryVars := (m.vars.filter fun p => p.2.vtype = "BINARY").map (·.1)
   if binaryVars.length > 0 then
     "Binary\n " ++ String.intercalate " " binaryVars ++ "\n"
   else "") ++
  "End\n"

/-! ## glpk.js bridge (`glpk-js-bridge.js`) -/

def GLP_MIN : ℚ := 1
def GLP_MAX : ℚ := 2
def GLP_FR : ℚ := 1
def GLP_LO : ℚ := 2
def GLP_UP : ℚ := 3
def GLP_DB : ℚ := 4
def GLP_UNDEF : ℚ := 1
def GLP_FEAS : ℚ := 2
def GLP_INFEAS : ℚ := 3
def GLP_NOFEAS : ℚ := 4
def GLP_OPT : ℚ := 5
def GLP_UNBND : ℚ := 6

structure GLPKVarCoef where
  name : String
  coef : ℚ
deriving DecidableEq, Repr

structure GLPKBnds where
  type : ℚ
  ub : ℚ
  lb : ℚ
deriving DecidableEq, Repr

structure GLPKConstraint where
  name : String
  vars : List GLPKVarCoef
  bnds : GLPKBnds
deriving DecidableEq, Repr

structure GLPKBound where
  name : String
  type : ℚ
  ub : ℚ
  lb : ℚ
deriving DecidableEq, Repr

structure GLPKRequest where
  name : String
  direction : ℚ
  objVars : List GLPKVarCoef
  subjectTo : List GLPKConstraint
  bounds : List GLPKBound
  binaries : List String
  generals : List String
deriving DecidableEq, Repr

/-- `{name: term[1].name, coef: term[0]}` for one canonical term; the
`none` quadratic slot would be a JS `TypeError`. -/
def glpkVarOf (t : CTerm) : Except String GLPKVarCoef :=
  match t with
  | .lin c v => .ok { name := v.name, coef := c }
  | .quad c (some v1) _ => .ok { name := v1.name, coef := c }
  | .quad _ none _ => .error "TypeError"

/-- The bridge-level `toGLPKFormat` encoder. -/
def toGLPKFormatB (m : Model) : Except String GLPKRequest := do
  let objVars ← m.objective.expression.terms.mapM glpkVarOf
  let subjectTo ← m.constraints.enum.mapM fun ci => do
    let vs ← ci.2.lhs.terms.mapM glpkVarOf
    .ok { name := "cons" ++ toString (ci.1 + 1)
          vars := vs
          bnds :=
            { type := if ci.2.comparison = "<=" then GLP_UP
                      else if ci.2.comparison = ">=" then GLP_LO else GLP_DB
              ub := if ci.2.comparison = "<=" then ci.2.rhs else 0
              lb := if ci.2.comparison = ">=" then ci.2.rhs else 0 } }
  .ok
    { name := "LP"
      direction := if strUpper m.objective.sense = "MAXIMIZE" then GLP_MAX else GLP_MIN
      objVars := objVars
      subjectTo := subjectTo
      bounds := m.vars.map fun p =>
        { name := p.2.name
          type :=
            match p.2.lb, p.2.ub with
            | .ninf, .pinf => GLP_FR
            | .ninf, _ => GLP_UP
            | _, .pinf => GLP_LO
            | _, _ => GLP_DB
          ub := match p.2.ub with | .pinf => 0 | .num q => q | .ninf => 0
          lb := match p.2.lb with | .ninf => 0 | .num q => q | .pinf => 0 }
      binaries := (m.vars.filter fun p => p.2.vtype = "BINARY").map (·.2.name)
      generals := (m.vars.filter fun p => p.2.vtype = "INTEGER").map (·.2.name) }

/-- `Model.toGLPKFormat`: rejects quadratic models before encoding. -/
def Model.toGLPKFormat (m : Model) : Except String GLPKRequest :=
  if isQuadratic m then
    .error "GLPK.js does not support quadratic models."
  else
    toGLPKFormatB m

/-- `readGLPKSolution`: stores the raw numeric status, copies variable
values by name (unknown names only produce a console warning), and reads
duals from the `cons<i+1>` row map when present. -/
def readGLPKSolution (m : Model) (solution : GLPKSolution) : Model :=
  let m := { m with status := some (.num solution.result.status) }
  let m := { m with
    vars := solution.result.vars.foldl (fun vs p =>
      if mHas vs p.1 then mAdjust vs p.1 (fun v => { v with value := some p.2 }) else vs)
      m.vars }
  match solution.result.dual with
  | none => m
  | some dualMap =>
    { m with
      constraints := m.constraints.enum.map fun ci =>
        match mGet dualMap ("cons" ++ toString (ci.1 + 1)) with
        | some d => { ci.2 with dual := some d }
        | none => ci.2 }

/-! ## jsLPSolver bridge (`jsLPSolver-bridge.js`) -/

/-- A constraint record of the jsLPSolver request: any subset of
`{max, min, equal}`. -/
structure JSLPBnd where
  max : Option ℚ := none
  min : Option ℚ := none
  equal : Option ℚ := none
deriving DecidableEq, Repr

structure JSLPRequest where
  optimize : String
  opType : String
  constraints : List (String × JSLPBnd)
  /-- per-variable map: key `"objective"` or a constraint name `c<i>` -/
  variableRows : List (String × List (String × ℚ))
  ints : List String
  binaries : List String
  unrestricted : List String
deriving DecidableEq, Repr

/-- `jsLPModel.variables[name][key] = ...` with object-indexing that
throws on an absent variable entry (modelled as an error). -/
def jslpSetVar (rows : List (String × List (String × ℚ))) (vname : String)
    (f : List (String × ℚ) → List (String × ℚ)) :
    Except String (List (String × List (String × ℚ))) :=
  if mHas rows vname then .ok (mAdjust rows vname f)
  else .error "TypeError"

/-- The `toJSLPSolverFormat` encoder.  It performs no quadratic check:
a `[coeff, v1, v2]` term contributes `coeff` to its first variable,
exactly as the `term[1].name` accesses in the source do. -/
def toJSLPSolverFormat (m : Model) : Except String JSLPRequest := do
  let base : JSLPRequest :=
    { optimize := "objective"
      opType := ⟨(strLower m.objective.sense).data.take 3⟩
      constraints := []
      variableRows := []
      ints := []
      binaries := []
      unrestricted := [] }
  -- translate variables and synthesize bound constraints
  let req := m.vars.foldl (fun req p =>
    let v := p.2
    let req := { req with variableRows := req.variableRows ++ [(p.1, [])] }
    let req :=
      if (match v.lb with
          | BVal.ninf => true
          | BVal.num q => decide (q < 0)
          | BVal.pinf => false) then
        { req with unrestricted := req.unrestricted ++ [p.1] }
      else req
    let req :=
      match v.lb with
      | .num q => if q ≠ 0 then
          { req with constraints := mSet req.constraints (p.1 ++ "_lb") { min := some q } }
        else req
      | _ => req
    let req :=
      match v.ub with
      | .num q =>
        { req with constraints := mSet req.constraints (p.1 ++ "_ub") { max := some q } }
      | _ => req
    let req :=
      if v.vtype = "BINARY" then { req with binaries := req.binaries ++ [p.1] }
      else if v.vtype = "INTEGER" then { req with ints := req.ints ++ [p.1] }
      else req
    req) base
  -- translate the objective: assignment (not accumulation) per term
  let rows ← m.objective.expression.terms.foldlM (fun rows t => do
    let n ← match t with
      | CTerm.lin _ v => pure v.name
      | CTerm.quad _ (some v1) _ => pure v1.name
      | CTerm.quad _ none _ => Except.error "TypeError"
    jslpSetVar rows n (fun l => mSet l "objective" t.coef)) req.variableRows
  let req := { req with variableRows := rows }
  -- translate constraints
  let req ← m.constraints.enum.foldlM (fun req ci => do
    let cname := "c" ++ toString ci.1
    let bnd : JSLPBnd :=
      if ci.2.comparison = "<=" then { max := some ci.2.rhs }
      else if ci.2.comparison = ">=" then { min := some ci.2.rhs }
      else if ci.2.comparison = "=" then { equal := some ci.2.rhs }
      else {}
    let req := { req with constraints := mSet req.constraints cname bnd }
    let rows ← ci.2.lhs.terms.foldlM (fun rows t => do
      let n ← match t with
        | CTerm.lin _ v => pure v.name
        | CTerm.quad _ (some v1) _ => pure v1.name
        | CTerm.quad _ none _ => Except.error "TypeError"
      jslpSetVar rows n (fun l =>
        let l := if mHas l cname then l else mSet l cname 0
        mAdjust l cname (· + t.coef))) req.variableRows
    pure { req with variableRows := rows }) req
  pure req

/-- `readJSLPSolverSolution`: maps the `feasible`/`bounded` pair to a
status string, defaults absent variables to `0`, and re-adds the
objective's constant term to the reported objective value (only when the
engine's `result` is truthy, i.e. nonzero). -/
def readJSLPSolverSolution (m : Model) (solution : JSLPSolution) : Model :=
  let m := { m with
    status := some (.str (if solution.feasible then
      (if solution.bounded then "Optimal" else "Unbounded") else "Infeasible")) }
  let m := { m with
    vars := m.vars.map fun p =>
      match mGet solution.vars p.1 with
      | some q => (p.1, { p.2 with value := some q })
      | none => (p.1, { p.2 with value := some 0 }) }
  if solution.result ≠ 0 then
    { m with ObjVal := some (solution.result + m.objective.expression.cst) }
  else m

/-! ## HiGHS bridge (`highs-js-bridge.js`) -/

/-- `readHighsSolution`: store the status; when it is neither `Optimal`
nor `Feasible`, return without touching anything else; otherwise copy
column primals into variable values and row primal/dual pairs into
constraints by index. -/
def readHighsSolution (m : Model) (solution : HighsSolution) : Model :=
  let m := { m with status := some (.str solution.Status) }
  if solution.Status ≠ "Optimal" ∧ solution.Status ≠ "Feasible" then m
  else
    let m := { m with
      vars := solution.Columns.foldl
        (fun (vs : List (String × Var)) (p : String × HighsColumn) =>
          if mHas vs p.1 then
            mAdjust vs p.1 (fun v => { v with value := some p.2.Primal })
          else vs) m.vars }
    { m with
      constraints := (solution.Rows.enum.foldl
        (fun (cs : List Constr) (ri : ℕ × HighsRow) =>
          if h : ri.1 < cs.length then
            cs.set ri.1
              { cs.get ⟨ri.1, h⟩ with primal := some ri.2.Primal, dual := ri.2.Dual }
          else cs) m.constraints) }

/-! ## `Model.solve` -/

/-- An external engine handle together with the response it returns for
this request; the duck-typed field probing of the source becomes the
constructor distinction, and `other` is a handle matching none of the
probes (the source then does nothing at all). -/
inductive Engine
  | jslp (resp : JSLPSolution)
  | glpk (resp : GLPKSolution)
  | highs (resp : HighsSolution)
  | other
deriving DecidableEq, Repr

/-- The solution-clearing prologue of `Model.solve` (lines
`this.solution = null` through `this.ObjVal = null`).  The `status`
field is not among the cleared fields. -/
def solveClear (m : Model) : Model :=
  { m with
    solution := none
    vars := m.vars.map fun p => (p.1, { p.2 with value := none })
    constraints := m.constraints.map fun c => { c with primal := none, dual := none }
    ObjVal := none }

/-- `Model.solve`: clear, then dispatch on the engine kind, encode the
request (whose failures propagate), store the raw response and decode
it. -/
def solve (m : Model) (engine : Engine) : Except String Model := do
  let m := solveClear m
  match engine with
  | .jslp resp => do
    let _ ← toJSLPSolverFormat m
    let m := { m with solution := some (.jslp resp) }
    .ok (readJSLPSolverSolution m resp)
  | .glpk resp => do
    let _ ← Model.toGLPKFormat m
    let m := { m with solution := some (.glpk resp) }
    .ok (readGLPKSolution m resp)
  | .highs resp =>
    let m := { m with solution := some (.highs resp) }
    .ok (readHighsSolution m resp)
  | .other => .ok m

/-! ## Specification-side semantic functions for the canonicalizer

These are independent readings of an input term sequence (constant sum,
per-key coefficient sums, first-seen key order), stated from the spec's
description and compared with what `parseExpression` computes. -/

/-- Constant contribution of one input element. -/
def itemConst : EItem → ℚ
  | .num c => c
  | _ => 0

/-- The canonical unordered pair key of two variable names. -/
def pairKey (a b : String) : String :=
  (if a > b then b else a) ++ "_***_" ++ (if a > b then a else b)

/-- The accumulation key of one input element, when it has one. -/
def keyOf : EItem → Option String
  | .num _ => none
  | .varb v => some v.name
  | .lin _ v? => v?.map (·.name)
  | .quad _ v1? v2? =>
    match v1?, v2? with
    | some v1, some v2 => some (pairKey v1.name v2.name)
    | _, _ => none

/-- Coefficient contribution of one input element to one key. -/
def contribOf (it : EItem) (k : String) : ℚ :=
  match it with
  | .num _ => 0
  | .varb v => if v.name = k then 1 else 0
  | .lin c v? => match v? with
    | some v => if v.name = k then c else 0
    | none => 0
  | .quad c v1? v2? =>
    match v1?, v2? with
    | some v1, some v2 => if pairKey v1.name v2.name = k then c else 0
    | _, _ => 0

/-- Total coefficient contributed to a key by an input sequence. -/
def contribSum (items : List EItem) (k : String) : ℚ :=
  (items.map (contribOf · k)).sum

/-- Summed coefficient carried by a key in an accumulator entry list. -/
def entrySum (k : String) (l : List (String × CTerm)) : ℚ :=
  (l.map fun p => if p.1 = k then p.2.coef else 0).sum

/-- Total linear coefficient of a variable name in a term list. -/
def termCoefLin (k : String) (ts : List CTerm) : ℚ :=
  (ts.map fun t =>
    match t with
    | .lin c v => if v.name = k then c else 0
    | .quad _ _ _ => 0).sum

/-- Keys in order of first occurrence, starting from already-seen keys. -/
def fsAppend (ks : List String) (items : List EItem) : List String :=
  items.foldl (fun ks it =>
    match keyOf it with
    | some k => if k ∈ ks then ks else ks ++ [k]
    | none => ks) ks

/-- First-seen key order of an input sequence. -/
def firstSeen (items : List EItem) : List String := fsAppend [] items

/-- A variable name for which the embedding of JS objects keyed by
variable names is exact: not the reserved `'constant'` key, not
containing the quadratic-pair separator, and not an ECMAScript
array-index numeral (which `for ... in` would reorder). -/
def okName (s : String) : Prop :=
  s ≠ "constant" ∧ ¬ ("_***_".data <:+: s.data) ∧ isArrayIndex s = none

/-- A linear-only valid input element (the shapes exercised by the
claims about linear merging). -/
def LinItem : EItem → Prop
  | .num _ => True
  | .varb v => okName v.name
  | .lin _ (some v) => okName v.name
  | .lin _ none => False
  | .quad _ _ _ => False

instance : DecidablePred okName := fun s =>
  (inferInstance : Decidable (s ≠ "constant" ∧
    ¬ ("_***_".data <:+: s.data) ∧ isArrayIndex s = none))

instance : DecidablePred LinItem
  | .num _ => .isTrue trivial
  | .varb v => (inferInstance : Decidable (okName v.name))
  | .lin _ (some v) => (inferInstance : Decidable (okName v.name))
  | .lin _ none => .isFalse id
  | .quad _ _ _ => .isFalse id

/-- An accumulator entry produced by linear-only input: a pair term
stored under its variable's name. -/
def EntryLin (p : String × CTerm) : Prop :=
  ∃ c v, p.2 = CTerm.lin c v ∧ p.1 = v.name ∧ okName v.name

/-- The stored linear variable name of a term (quadratic terms do not
occur under the linear-only hypotheses). -/
def nameOf : CTerm → String
  | .lin _ v => v.name
  | .quad _ _ _ => ""

/-! ### Association-list lemmas -/

theorem mGet_append {β : Type} (l1 l2 : List (String × β)) (k : String) :
    mGet (l1 ++ l2) k = ((mGet l1 k).rec (mGet l2 k) fun b => some b) := by
  induction l1 with
  | nil => simp [mGet]
  | cons p t ih =>
    simp only [List.cons_append, mGet]
    by_cases h : p.1 = k
    · simp [h]
    · simp [h, ih]

theorem mGet_eq_of_mem_keys {β : Type} (l : List (String × β)) (k : String) :
    mHas l k = true ↔ k ∈ l.map Prod.fst := by
  induction l with
  | nil => simp [mHas, mGet]
  | cons p t ih =>
    simp only [mHas, mGet, List.map_cons, List.mem_cons]
    by_cases h : p.1 = k
    · simp [h]
    · simp only [if_neg h]
      rw [← mHas]
      rw [ih]
      constructor
      · exact Or.inr
      · rintro (rfl | hm)
        · exact absurd rfl h
        · exact hm

theorem mAdjust_map_fst {β : Type} (l : List (String × β)) (k : String)
    (f : β → β) : (mAdjust l k f).map Prod.fst = l.map Prod.fst := by
  induction l with
  | nil => rfl
  | cons p t ih =>
    simp only [mAdjust]
    by_cases h : p.1 = k
    · simp [h]
    · simp [h, ih]

theorem entrySum_append (k : String) (l1 l2 : List (String × CTerm)) :
    entrySum k (l1 ++ l2) = entrySum k l1 + entrySum k l2 := by
  simp [entrySum]

theorem coef_addCoef (t : CTerm) (c : ℚ) : (t.addCoef c).coef = t.coef + c := by
  cases t <;> simp [CTerm.addCoef, CTerm.coef]

theorem mHas_cons (p : String × CTerm) (t : List (String × CTerm)) (k : String)
    (h : ¬ p.1 = k) : mHas (p :: t) k = mHas t k := by
  simp [mHas, mGet, h]

theorem entrySum_mAdjust_addCoef (l : List (String × CTerm)) (k k' : String)
    (c : ℚ) :
    entrySum k' (mAdjust l k (·.addCoef c)) =
      entrySum k' l + (if k' = k ∧ mHas l k then c else 0) := by
  induction l with
  | nil => simp [mAdjust, entrySum, mHas, mGet]
  | cons p t ih =>
    by_cases h : p.1 = k
    · have hhas : mHas (p :: t) k = true := by simp [mHas, mGet, h]
      by_cases h' : p.1 = k'
      · have hk : k' = k := by rw [← h, h']
        simp only [mAdjust, if_pos h, entrySum, List.map_cons, List.sum_cons,
          if_pos h', coef_addCoef, hk, hhas, and_true, eq_self_iff_true, if_true]
        ring
      · have hk : ¬ (k' = k) := fun e => h' (by rw [e, ← h])
        simp only [mAdjust, if_pos h, entrySum, List.map_cons, List.sum_cons,
          if_neg h', hk, false_and, if_false, add_zero]
    · have hhas : mHas (p :: t) k = mHas t k := mHas_cons p t k h
      simp only [mAdjust, if_neg h, entrySum, List.map_cons, List.sum_cons, hhas]
      rw [show (List.map (fun p => if p.1 = k' then p.2.coef else 0)
        (mAdjust t k fun x => x.addCoef c)).sum =
          entrySum k' (mAdjust t k (·.addCoef c)) from rfl, ih]
      unfold entrySum
      ring

theorem entrySum_perm (k : String) {l1 l2 : List (String × CTerm)}
    (h : l1.Perm l2) : entrySum k l1 = entrySum k l2 :=
  List.Perm.sum_eq (h.map _)

theorem idxInsert_perm {β : Type} (p : String × β) (l : List (String × β)) :
    (idxInsert p l).Perm (p :: l) := by
  induction l with
  | nil => simp [idxInsert]
  | cons q t ih =>
    simp only [idxInsert]
    by_cases h : ((isArrayIndex p.1).getD 0) < ((isArrayIndex q.1).getD 0)
    · simp [h]
    · simp only [if_neg h]
      exact (ih.cons q).trans (List.Perm.swap p q t)

theorem idxSort_perm {β : Type} (l : List (String × β)) :
    (idxSort l).Perm l := by
  induction l with
  | nil => simp [idxSort]
  | cons p t ih => exact (idxInsert_perm p (idxSort t)).trans (ih.cons p)

theorem enumOrder_perm {β : Type} (l : List (String × β)) :
    (enumOrder l).Perm l := by
  unfold enumOrder
  refine ((idxSort_perm _).append (List.Perm.refl _)).trans ?_
  have h := List.filter_append_perm (fun p : String × β => (isArrayIndex p.1).isSome) l
  refine List.Perm.trans ?_ h
  apply List.Perm.append (List.Perm.refl _)
  have : (fun p : String × β => decide ¬ (isArrayIndex p.1).isSome = true) =
      (fun p : String × β => ! (isArrayIndex p.1).isSome) := by
    funext p
    cases hx : (isArrayIndex p.1).isSome <;> simp [hx]
  rw [this]

theorem enumOrder_eq_self {β : Type} (l : List (String × β))
    (h : ∀ p ∈ l, isArrayIndex p.1 = none) : enumOrder l = l := by
  unfold enumOrder
  have h1 : l.filter (fun p => (isArrayIndex p.1).isSome) = [] := by
    apply List.filter_eq_nil_iff.mpr
    intro p hp
    simp [h p hp]
  have h2 : l.filter (fun p => decide ¬ (isArrayIndex p.1).isSome) = l := by
    apply List.filter_eq_self.mpr
    intro p hp
    simp [h p hp]
  rw [h1]
  simpa [idxSort] using h2

/-! ### The accumulation loop on linear-only input -/

theorem entryLin_addCoef (p : String × CTerm) (c : ℚ) (h : EntryLin p) :
    EntryLin (p.1, p.2.addCoef c) := by
  obtain ⟨c0, v, he, hk, ho⟩ := h
  exact ⟨c0 + c, v, by rw [he]; rfl, hk, ho⟩

theorem entryLin_mAdjust (l : List (String × CTerm)) (k : String) (c : ℚ)
    (h : ∀ p ∈ l, EntryLin p) :
    ∀ p ∈ mAdjust l k (·.addCoef c), EntryLin p := by
  induction l with
  | nil => simp [mAdjust]
  | cons q t ih =>
    intro p hp
    simp only [mAdjust] at hp
    by_cases hq : q.1 = k
    · rw [if_pos hq] at hp
      cases List.mem_cons.mp hp with
      | inl he =>
        rw [he]
        exact entryLin_addCoef q c (h q (List.mem_cons_self q t))
      | inr hm => exact h p (List.mem_cons_of_mem q hm)
    · rw [if_neg hq] at hp
      cases List.mem_cons.mp hp with
      | inl he =>
        rw [he]
        exact h q (List.mem_cons_self q t)
      | inr hm => exact ih (fun r hr => h r (List.mem_cons_of_mem q hr)) p hm

theorem entrySum_single (k k' : String) (t : CTerm) :
    entrySum k' [(k, t)] = if k = k' then t.coef else 0 := by
  simp [entrySum]

/-- The accumulation loop of `parseExpression` on linear-only input:
it succeeds, the constant accumulates the bare numbers, each key's
summed coefficient accumulates the contributions, the key list grows in
first-seen order, and every entry stays a pair term stored under its
variable's name. -/
theorem peFold_linear (m : Model) (items : List EItem)
    (h : ∀ it ∈ items, LinItem it) :
    ∀ (cacc : ℚ) (eacc : List (String × CTerm)),
    (∀ p ∈ eacc, EntryLin p) →
    ∃ res : ℚ × List (String × CTerm),
      items.foldlM (peStep m) (cacc, eacc) = .ok res ∧
      res.1 = cacc + (items.map itemConst).sum ∧
      (∀ k, entrySum k res.2 = entrySum k eacc + contribSum items k) ∧
      res.2.map Prod.fst = fsAppend (eacc.map Prod.fst) items ∧
      (∀ p ∈ res.2, EntryLin p) := by
  induction items with
  | nil =>
    intro cacc eacc hacc
    refine ⟨(cacc, eacc), rfl, by simp, fun k => by simp [contribSum], by
      simp [fsAppend], hacc⟩
  | cons it rest ih =>
    intro cacc eacc hacc
    have hit := h it (List.mem_cons_self it rest)
    have hrest : ∀ x ∈ rest, LinItem x := fun x hx => h x (List.mem_cons_of_mem it hx)
    -- analyze the step for the three possible linear item shapes
    match it with
    | .num c =>
      obtain ⟨res, hres, h1, h2, h3, h4⟩ := ih hrest (cacc + c) eacc hacc
      refine ⟨res, ?_, ?_, ?_, ?_, h4⟩
      · simpa [List.foldlM_cons, peStep] using hres
      · simp only [h1, List.map_cons, List.sum_cons, itemConst]; ring
      · intro k
        rw [h2 k]
        simp [contribSum, contribOf]
      · simpa [fsAppend, keyOf] using h3
    | .varb v =>
      by_cases hc : mHas eacc v.name = true
      · obtain ⟨res, hres, h1, h2, h3, h4⟩ := ih hrest cacc
          (mAdjust eacc v.name (·.addCoef 1))
          (entryLin_mAdjust eacc v.name 1 hacc)
        refine ⟨res, ?_, by
          simp only [List.map_cons, List.sum_cons, itemConst, zero_add]
          exact h1, ?_, ?_, h4⟩
        · simpa [List.foldlM_cons, peStep, hc] using hres
        · intro k
          rw [h2 k, entrySum_mAdjust_addCoef]
          simp only [contribSum, contribOf, List.map_cons, List.sum_cons, hc, and_true]
          have : (if k = v.name then (1:ℚ) else 0) = (if v.name = k then 1 else 0) := by
            rcases eq_or_ne k v.name with hk | hk
            · simp [hk]
            · simp [hk, hk.symm]
          rw [this]
          ring
        · rw [h3, mAdjust_map_fst]
          have hmem : v.name ∈ eacc.map Prod.fst := (mGet_eq_of_mem_keys eacc v.name).mp hc
          simp [fsAppend, keyOf, hmem]
      · obtain ⟨res, hres, h1, h2, h3, h4⟩ := ih hrest cacc
          (eacc ++ [(v.name, .lin 1 v)])
          (by
            intro p hp
            rcases List.mem_append.mp hp with hm | hm
            · exact hacc p hm
            · simp only [List.mem_singleton] at hm
              exact ⟨1, v, by rw [hm], by rw [hm], hit⟩)
        refine ⟨res, ?_, by
          simp only [List.map_cons, List.sum_cons, itemConst, zero_add]
          exact h1, ?_, ?_, h4⟩
        · simpa [List.foldlM_cons, peStep, hc] using hres
        · intro k
          rw [h2 k, entrySum_append, entrySum_single]
          simp only [contribSum, contribOf, List.map_cons, List.sum_cons, CTerm.coef]
          ring
        · rw [h3]
          have hmem : v.name ∉ eacc.map Prod.fst := fun hm =>
            hc ((mGet_eq_of_mem_keys eacc v.name).mpr hm)
          simp [fsAppend, keyOf, hmem]
    | .lin c v? =>
      match v? with
      | none => exact absurd hit id
      | some v =>
      have hov : okName v.name := hit
      by_cases hc : mHas eacc v.name = true
      · obtain ⟨res, hres, h1, h2, h3, h4⟩ := ih hrest cacc
          (mAdjust eacc v.name (·.addCoef c))
          (entryLin_mAdjust eacc v.name c hacc)
        refine ⟨res, ?_, by
          simp only [List.map_cons, List.sum_cons, itemConst, zero_add]
          exact h1, ?_, ?_, h4⟩
        · simpa [List.foldlM_cons, peStep, hc] using hres
        · intro k
          rw [h2 k, entrySum_mAdjust_addCoef]
          simp only [contribSum, contribOf, List.map_cons, List.sum_cons, hc, and_true]
          have : (if k = v.name then c else 0) = (if v.name = k then c else 0) := by
            rcases eq_or_ne k v.name with hk | hk
            · simp [hk]
            · simp [hk, hk.symm]
          rw [this]
          ring
        · rw [h3, mAdjust_map_fst]
          have hmem : v.name ∈ eacc.map Prod.fst := (mGet_eq_of_mem_keys eacc v.name).mp hc
          simp [fsAppend, keyOf, hmem]
      · obtain ⟨res, hres, h1, h2, h3, h4⟩ := ih hrest cacc
          (eacc ++ [(v.name, .lin c v)])
          (by
            intro p hp
            rcases List.mem_append.mp hp with hm | hm
            · exact hacc p hm
            · simp only [List.mem_singleton] at hm
              exact ⟨c, v, by rw [hm], by rw [hm], hov⟩)
        refine ⟨res, ?_, by
          simp only [List.map_cons, List.sum_cons, itemConst, zero_add]
          exact h1, ?_, ?_, h4⟩
        · simpa [List.foldlM_cons, peStep, hc] using hres
        · intro k
          rw [h2 k, entrySum_append, entrySum_single]
          simp only [contribSum, contribOf, List.map_cons, List.sum_cons, CTerm.coef]
          ring
        · rw [h3]
          have hmem : v.name ∉ eacc.map Prod.fst := fun hm =>
            hc ((mGet_eq_of_mem_keys eacc v.name).mpr hm)
          simp [fsAppend, keyOf, hmem]
    | .quad c v1 v2 => exact absurd hit (by simp [LinItem])

theorem fsAppend_nodup (items : List EItem) :
    ∀ ks : List String, ks.Nodup → (fsAppend ks items).Nodup := by
  induction items with
  | nil => intro ks h; simpa [fsAppend] using h
  | cons it rest ih =>
    intro ks h
    show (fsAppend (match keyOf it with
      | some k => if k ∈ ks then ks else ks ++ [k]
      | none => ks) rest).Nodup
    match keyOf it with
    | none => exact ih ks h
    | some k =>
      by_cases hk : k ∈ ks
      · simpa [hk] using ih ks h
      · have : (ks ++ [k]).Nodup := by
          simp [List.nodup_append, h, hk]
        simpa [hk] using ih (ks ++ [k]) this

theorem entrySum_eq_zero_of_not_mem (k : String) (l : List (String × CTerm))
    (h : k ∉ l.map Prod.fst) : entrySum k l = 0 := by
  induction l with
  | nil => simp [entrySum]
  | cons p t ih =>
    simp only [List.map_cons, List.mem_cons, not_or] at h
    have : ¬ p.1 = k := fun e => h.1 e.symm
    simp only [entrySum, List.map_cons, List.sum_cons, if_neg this, zero_add]
    exact ih h.2

theorem entrySum_cons (k : String) (q : String × CTerm)
    (t : List (String × CTerm)) :
    entrySum k (q :: t) = (if q.1 = k then q.2.coef else 0) + entrySum k t := by
  simp [entrySum]

theorem entrySum_eq_coef_of_nodup (l : List (String × CTerm))
    (h : (l.map Prod.fst).Nodup) : ∀ p ∈ l, entrySum p.1 l = p.2.coef := by
  induction l with
  | nil => simp
  | cons q t ih =>
    intro p hp
    simp only [List.map_cons, List.nodup_cons] at h
    cases List.mem_cons.mp hp with
    | inl he =>
      rw [he, entrySum_cons, if_pos rfl,
        entrySum_eq_zero_of_not_mem q.1 t h.1, add_zero]
    | inr hm =>
      have hne : ¬ q.1 = p.1 := by
        intro e
        exact h.1 (e ▸ List.mem_map_of_mem Prod.fst hm)
      rw [entrySum_cons, if_neg hne, zero_add]
      exact ih h.2 p hm

theorem filter_nz_map_fst (l : List (String × CTerm))
    (h : (l.map Prod.fst).Nodup) :
    (l.filter fun p => p.2.coef ≠ 0).map Prod.fst =
      (l.map Prod.fst).filter fun k => entrySum k l ≠ 0 := by
  induction l with
  | nil => simp
  | cons q t ih =>
    simp only [List.map_cons, List.nodup_cons] at h
    have hq : entrySum q.1 (q :: t) = q.2.coef :=
      entrySum_eq_coef_of_nodup (q :: t)
        (by simp [List.nodup_cons, h.1, h.2]) q (List.mem_cons_self q t)
    have ht : ∀ k ∈ t.map Prod.fst, entrySum k (q :: t) = entrySum k t := by
      intro k hk
      have hne : ¬ q.1 = k := fun e => h.1 (e ▸ hk)
      rw [entrySum_cons, if_neg hne, zero_add]
    have htail : (t.map Prod.fst).filter (fun k => entrySum k (q :: t) ≠ 0) =
        (t.map Prod.fst).filter (fun k => entrySum k t ≠ 0) := by
      apply List.filter_congr
      intro k hk
      simp [ht k hk]
    rw [List.map_cons, List.filter_cons, List.filter_cons, hq]
    by_cases hz : q.2.coef ≠ 0
    · have hd : (decide (q.2.coef ≠ 0)) = true := by simp [hz]
      rw [hd]
      simp only [if_true, List.map_cons]
      rw [ih h.2, htail]
    · push_neg at hz
      have hd : (decide (q.2.coef ≠ 0)) = false := by simp [hz]
      rw [hd]
      simp only [Bool.false_eq_true, if_false]
      rw [ih h.2, htail]

theorem termCoefLin_map_snd (k : String) (l : List (String × CTerm))
    (h : ∀ p ∈ l, EntryLin p) :
    termCoefLin k (l.map (·.2)) = entrySum k l := by
  induction l with
  | nil => simp [termCoefLin, entrySum]
  | cons q t ih =>
    obtain ⟨c, v, he, hk, _⟩ := h q (List.mem_cons_self q t)
    simp only [List.map_cons, termCoefLin, entrySum, List.sum_cons, he, hk]
    rw [show (List.map (fun t => match t with
      | CTerm.lin c v => if v.name = k then c else 0
      | CTerm.quad _ _ _ => 0) (List.map (fun x => x.2) t)).sum =
        termCoefLin k (t.map (·.2)) from rfl]
    rw [ih fun p hp => h p (List.mem_cons_of_mem q hp)]
    rfl

theorem entrySum_filter_nz (k : String) (l : List (String × CTerm)) :
    entrySum k (l.filter fun p => p.2.coef ≠ 0) = entrySum k l := by
  induction l with
  | nil => simp
  | cons q t ih =>
    rw [List.filter_cons]
    by_cases hz : q.2.coef ≠ 0
    · have hd : (decide (q.2.coef ≠ 0)) = true := by simp [hz]
      rw [hd]
      simp only [if_true]
      rw [entrySum_cons, ih, entrySum_cons]
    · push_neg at hz
      have hd : (decide (q.2.coef ≠ 0)) = false := by simp [hz]
      rw [hd]
      simp only [Bool.false_eq_true, if_false]
      rw [ih, entrySum_cons, hz]
      simp

/-- Characterization of `parseExpression` on linear-only input with
embedding-exact names: it succeeds; the constant is the sum of the bare
numbers; each variable's total coefficient is the sum of that variable's
contributions; the emitted terms are exactly the first-seen keys whose
summed coefficient is nonzero, in first-seen order; and no emitted term
has coefficient zero. -/
theorem parseExpression_linear (m : Model) (items : List EItem)
    (h : ∀ it ∈ items, LinItem it) :
    ∃ e : CExpr, parseExpression m items = .ok e ∧
      e.cst = (items.map itemConst).sum ∧
      (∀ k, termCoefLin k e.terms = contribSum items k) ∧
      e.terms.map nameOf = (firstSeen items).filter (fun k => contribSum items k ≠ 0) ∧
      (∀ t ∈ e.terms, t.coef ≠ 0) ∧
      (∀ t ∈ e.terms, ∃ c v, t = CTerm.lin c v ∧ okName v.name) := by
  obtain ⟨res, hres, h1, h2, h3, h4⟩ := peFold_linear m items h 0 [] (by simp)
  have hidx : ∀ p ∈ res.2, isArrayIndex p.1 = none := by
    intro p hp
    obtain ⟨c, v, _, hk, ho⟩ := h4 p hp
    rw [hk]
    exact ho.2.2
  have henum : enumOrder res.2 = res.2 := enumOrder_eq_self res.2 hidx
  have hnodup : (res.2.map Prod.fst).Nodup := by
    rw [h3]
    exact fsAppend_nodup items [] List.nodup_nil
  have hsum : ∀ k, entrySum k res.2 = contribSum items k := by
    intro k
    rw [h2 k]
    simp [entrySum]
  refine ⟨{ cst := res.1
            terms := ((enumOrder res.2).filter fun p => p.2.coef ≠ 0).map (·.2) },
    ?_, by simpa using h1, ?_, ?_, ?_, ?_⟩
  · unfold parseExpression
    rw [hres]
    rfl
  · intro k
    rw [henum]
    rw [termCoefLin_map_snd k _ (fun p hp => h4 p (List.mem_of_mem_filter hp))]
    rw [entrySum_filter_nz, hsum]
  · rw [henum]
    have hev : ∀ p ∈ (res.2.filter fun p => p.2.coef ≠ 0), nameOf p.2 = p.1 := by
      intro p hp
      obtain ⟨c, v, he, hk, _⟩ := h4 p (List.mem_of_mem_filter hp)
      rw [he, hk]
      rfl
    calc ((res.2.filter fun p => p.2.coef ≠ 0).map (·.2)).map nameOf
        = (res.2.filter fun p => p.2.coef ≠ 0).map Prod.fst := by
          rw [List.map_map]
          exact List.map_congr_left hev
      _ = (res.2.map Prod.fst).filter fun k => entrySum k res.2 ≠ 0 :=
          filter_nz_map_fst res.2 hnodup
      _ = (firstSeen items).filter fun k => contribSum items k ≠ 0 := by
          rw [h3]
          simp only [List.map_nil]
          rw [show fsAppend [] items = firstSeen items from rfl]
          apply List.filter_congr
          intro k _
          simp [hsum k]
  · intro t ht
    rw [henum] at ht
    obtain ⟨p, hp, hpt⟩ := List.mem_map.mp ht
    rw [← hpt]
    simpa using (List.mem_filter.mp hp).2
  · intro t ht
    rw [henum] at ht
    obtain ⟨p, hp, hpt⟩ := List.mem_map.mp ht
    obtain ⟨c, v, he, _, ho⟩ := h4 p (List.mem_of_mem_filter hp)
    exact ⟨c, v, by rw [← hpt, he], ho⟩

/-! ## Claim theorems: expression canonicalizer -/

/-- Duplicate references merge by coefficient addition:
`[[2,x],[3,x]]` canonicalizes exactly like `[[5,x]]`. -/
theorem pe_merge_two_three (m : Model) (x : Var) :
    parseExpression m [.lin 2 (some x), .lin 3 (some x)] =
      parseExpression m [.lin 5 (some x)] := by
  simp [parseExpression, peStep, mHas, mGet, mAdjust, CTerm.addCoef,
    List.foldlM_cons, List.foldlM_nil, bind, Except.bind]
  norm_num

def ceVarA : Var :=
  { name := "a", lb := .num 0, ub := .pinf, vtype := "CONTINUOUS" }

def ceVarZero : Var :=
  { name := "0", lb := .num 0, ub := .pinf, vtype := "CONTINUOUS" }

/-- C2, counterexample.  With a variable literally named `"0"` (an
ECMAScript array-index key), `parseExpression` does **not** emit the
surviving terms in first-seen order: the key `"0"` is enumerated before
the earlier-seen key `"a"`, so the claim as stated fails on this
input. -/
theorem C2_counterexample :
    parseExpression Model.init [.varb ceVarA, .varb ceVarZero] =
      .ok { cst := 0, terms := [.lin 1 ceVarZero, .lin 1 ceVarA] } ∧
    firstSeen [.varb ceVarA, .varb ceVarZero] = ["a", "0"] ∧
    ([CTerm.lin 1 ceVarZero, CTerm.lin 1 ceVarA].map nameOf ≠ ["a", "0"]) := by
  refine ⟨by rfl, by rfl, by decide⟩

/-- C2 (amended).  For every sequence of valid linear expression terms
whose variable names are embedding-exact and not array-index numerals,
`parseExpression` succeeds; the result's constant is the sum of the bare
number elements; each variable's total coefficient is the sum of its
contributions (hence duplicate references are merged, and in particular
`[[2,x],[3,x]]` canonicalizes like `[[5,x]]`); permuting the input
leaves the constant and every summed coefficient unchanged
(order-independence of the canonical content); the emitted terms are the
first-seen keys with nonzero summed coefficient in first-seen order; and
every zero-coefficient term is dropped. -/
theorem C2_canonicalization (m : Model) (items items' : List EItem)
    (h : ∀ it ∈ items, LinItem it) (hperm : items.Perm items') :
    ∃ e e' : CExpr,
      parseExpression m items = .ok e ∧
      parseExpression m items' = .ok e' ∧
      (∀ x : Var, parseExpression m [.lin 2 (some x), .lin 3 (some x)] =
        parseExpression m [.lin 5 (some x)]) ∧
      e.cst = (items.map itemConst).sum ∧
      (∀ k, termCoefLin k e.terms = contribSum items k) ∧
      e'.cst = e.cst ∧
      (∀ k, termCoefLin k e'.terms = termCoefLin k e.terms) ∧
      e.terms.map nameOf =
        (firstSeen items).filter (fun k => contribSum items k ≠ 0) ∧
      (∀ t ∈ e.terms, t.coef ≠ 0) := by
  have h' : ∀ it ∈ items', LinItem it := fun it hm => h it (hperm.mem_iff.mpr hm)
  obtain ⟨e, he, hc, hk, hfs, hnz, _⟩ := parseExpression_linear m items h
  obtain ⟨e', he', hc', hk', _, _, _⟩ := parseExpression_linear m items' h'
  have hconst : (items'.map itemConst).sum = (items.map itemConst).sum :=
    List.Perm.sum_eq ((hperm.map itemConst).symm)
  have hcontrib : ∀ k, contribSum items' k = contribSum items k := fun k =>
    List.Perm.sum_eq ((hperm.map (contribOf · k)).symm)
  exact ⟨e, e', he, he', fun x => pe_merge_two_three m x, hc, hk,
    by rw [hc', hconst, hc],
    fun k => by rw [hk' k, hcontrib k, hk k], hfs, hnz⟩

/-- Witness for `C2_canonicalization` at a concrete input. -/
theorem C2_canonicalization_witness :
    (∀ it ∈ ([.varb ceVarA, .num 7, .lin 2 (some ceVarA)] : List EItem),
      LinItem it) ∧
    ([.varb ceVarA, .num 7, .lin 2 (some ceVarA)] : List EItem).Perm
      [.lin 2 (some ceVarA), .varb ceVarA, .num 7] ∧
    (∃ e e' : CExpr,
      parseExpression Model.init [.varb ceVarA, .num 7, .lin 2 (some ceVarA)] = .ok e ∧
      parseExpression Model.init [.lin 2 (some ceVarA), .varb ceVarA, .num 7] = .ok e' ∧
      (∀ x : Var, parseExpression Model.init [.lin 2 (some x), .lin 3 (some x)] =
        parseExpression Model.init [.lin 5 (some x)]) ∧
      e.cst = (([.varb ceVarA, .num 7, .lin 2 (some ceVarA)] : List EItem).map itemConst).sum ∧
      (∀ k, termCoefLin k e.terms =
        contribSum [.varb ceVarA, .num 7, .lin 2 (some ceVarA)] k) ∧
      e'.cst = e.cst ∧
      (∀ k, termCoefLin k e'.terms = termCoefLin k e.terms) ∧
      e.terms.map nameOf =
        (firstSeen [.varb ceVarA, .num 7, .lin 2 (some ceVarA)]).filter
          (fun k => contribSum [.varb ceVarA, .num 7, .lin 2 (some ceVarA)] k ≠ 0) ∧
      (∀ t ∈ e.terms, t.coef ≠ 0)) :=
  ⟨by decide, by decide,
    C2_canonicalization Model.init _ _ (by decide) (by decide)⟩

/-- C9.  Canonicalizing the quadratic term `(c, x, y)` and `(c, y, x)`
produces the same stored term: the pair is keyed by the
lexicographically sorted name pair, independent of argument order. -/
theorem C9_quad_symmetric (m : Model) (c : ℚ) (x y : Var)
    (hx : mGet m.vars x.name = some x) (hy : mGet m.vars y.name = some y) :
    parseExpression m [.quad c (some x) (some y)] =
      parseExpression m [.quad c (some y) (some x)] := by
  simp only [parseExpression, peStep, List.foldlM_cons, List.foldlM_nil, mHas,
    mGet]
  rcases lt_trichotomy x.name y.name with h | h | h
  · have h1 : ¬ x.name > y.name := not_lt_of_lt h
    have h2 : y.name > x.name := h
    simp [h1, h2]
  · simp [h]
  · have h1 : x.name > y.name := h
    have h2 : ¬ y.name > x.name := not_lt_of_lt h
    simp [h1, h2]

def wVarX : Var :=
  { name := "x", lb := .num 0, ub := .pinf, vtype := "CONTINUOUS" }

def wVarY : Var :=
  { name := "y", lb := .num 0, ub := .pinf, vtype := "CONTINUOUS" }

def wModelXY : Model :=
  { Model.init with vars := [("x", wVarX), ("y", wVarY)] }

/-- Witness for `C9_quad_symmetric` at a concrete input. -/
theorem C9_quad_symmetric_witness :
    mGet wModelXY.vars wVarX.name = some wVarX ∧
    mGet wModelXY.vars wVarY.name = some wVarY ∧
    parseExpression wModelXY [.quad 3 (some wVarX) (some wVarY)] =
      parseExpression wModelXY [.quad 3 (some wVarY) (some wVarX)] :=
  ⟨by rfl, by rfl, C9_quad_symmetric wModelXY 3 wVarX wVarY (by rfl) (by rfl)⟩

/-! ## Claim C3: the constraint builder -/

/-- The constant carried by the right-hand argument of `addConstr`. -/
def rhsConstSum : RhsArg → ℚ
  | .num q => q
  | .expr items => (items.map itemConst).sum

/-- The coefficient contributed to a key by the right-hand argument. -/
def rhsContrib (rhs : RhsArg) (k : String) : ℚ :=
  match rhs with
  | .num _ => 0
  | .expr items => contribSum items k

theorem itemConst_sum_items (e : CExpr) :
    (e.items.map itemConst).sum = e.cst := by
  simp only [CExpr.items, List.map_cons, List.sum_cons, itemConst]
  rw [List.map_map]
  rw [List.sum_eq_zero, add_zero]
  intro x hx
  obtain ⟨t, _, rfl⟩ := List.mem_map.mp hx
  cases t <;> rfl

theorem contribSum_items (e : CExpr)
    (h : ∀ t ∈ e.terms, ∃ c v, t = CTerm.lin c v ∧ okName v.name) (k : String) :
    contribSum e.items k = termCoefLin k e.terms := by
  simp only [contribSum, CExpr.items, List.map_cons, List.sum_cons, contribOf]
  rw [List.map_map, zero_add]
  unfold termCoefLin
  congr 1
  apply List.map_congr_left
  intro t ht
  obtain ⟨c, v, rfl, _⟩ := h t ht
  rfl

theorem linItem_items (e : CExpr)
    (h : ∀ t ∈ e.terms, ∃ c v, t = CTerm.lin c v ∧ okName v.name) :
    ∀ it ∈ e.items, LinItem it := by
  intro it hit
  rcases List.mem_cons.mp hit with he | hm
  · rw [he]; trivial
  · obtain ⟨t, ht, rfl⟩ := List.mem_map.mp hm
    obtain ⟨c, v, rfl, ho⟩ := h t ht
    exact ho

theorem neg_shapes (e : CExpr)
    (h : ∀ t ∈ e.terms, ∃ c v, t = CTerm.lin c v ∧ okName v.name) :
    ∀ t ∈ e.neg.terms, ∃ c v, t = CTerm.lin c v ∧ okName v.name := by
  intro t ht
  obtain ⟨u, hu, rfl⟩ := List.mem_map.mp ht
  obtain ⟨c, v, rfl, ho⟩ := h u hu
  exact ⟨-c, v, rfl, ho⟩

theorem sum_map_neg {α : Type} (l : List α) (f : α → ℚ) :
    (l.map fun a => -(f a)).sum = -((l.map f).sum) := by
  induction l with
  | nil => simp
  | cons a t ih => simp [ih]; ring

theorem termCoefLin_neg (k : String) (e : CExpr) :
    termCoefLin k e.neg.terms = -termCoefLin k e.terms := by
  unfold termCoefLin CExpr.neg
  simp only [List.map_map]
  rw [show ∀ l : List CTerm, ∀ f g : CTerm → ℚ, (∀ t, f t = -(g t)) →
      (l.map f).sum = -((l.map g).sum) from ?_]
  · intro t
    cases t with
    | lin c v =>
      simp only [Function.comp]
      by_cases hv : v.name = k <;> simp [hv]
    | quad c v1 v2 => simp [Function.comp]
  · intro l f g hfg
    rw [List.map_congr_left fun t _ => hfg t, sum_map_neg]

theorem contribSum_append (l1 l2 : List EItem) (k : String) :
    contribSum (l1 ++ l2) k = contribSum l1 k + contribSum l2 k := by
  simp [contribSum]

theorem itemConst_sum_append (l1 l2 : List EItem) :
    ((l1 ++ l2).map itemConst).sum =
      (l1.map itemConst).sum + (l2.map itemConst).sum := by
  simp

theorem addConstr_eval (m : Model) (lhs : List EItem) (op : String) (rhs : RhsArg)
    (lhsE rhsE fin : CExpr)
    (h1 : parseExpression m lhs = .ok lhsE)
    (h2 : (match rhs with
      | RhsArg.num q => pure ({ cst := q, terms := [] } : CExpr)
      | RhsArg.expr items => parseExpression m items) = Except.ok rhsE)
    (h3 : ((["<=", "=", ">="] : List String).contains
      (if op = "==" then "=" else op)) = true)
    (h4 : parseExpression m (lhsE.items ++ rhsE.neg.items) = .ok fin) :
    addConstr m lhs op rhs =
      .ok ({ m with constraints := m.constraints ++
        [{ lhs := { cst := 0, terms := fin.terms },
           comparison := if op = "==" then "=" else op,
           rhs := -fin.cst }] },
        { lhs := { cst := 0, terms := fin.terms },
          comparison := if op = "==" then "=" else op,
          rhs := -fin.cst }) := by
  cases rhs with
  | num q =>
    have hq : rhsE = { cst := q, terms := [] } := by
      simpa [pure, Except.pure] using h2.symm
    subst hq
    unfold addConstr
    rw [h1]
    simp only [bind, Except.bind, pure, Except.pure]
    rw [if_neg (not_not_intro h3), h4]
  | expr its =>
    have hq : parseExpression m its = Except.ok rhsE := h2
    unfold addConstr
    rw [h1]
    simp only [bind, Except.bind, pure, Except.pure]
    rw [hq]
    dsimp only
    rw [if_neg (not_not_intro h3), h4]

/-- A shape-valid input element (the `instanceof` checks pass). -/
def ShapeOk : EItem → Prop
  | .num _ => True
  | .varb _ => True
  | .lin _ (some _) => True
  | .lin _ none => False
  | .quad _ (some _) (some _) => True
  | .quad _ _ _ => False

theorem peStep_shift (m : Model) (it : EItem) (c δ : ℚ)
    (es : List (String × CTerm)) :
    peStep m (c + δ, es) it =
      (peStep m (c, es) it).map fun r => (r.1 + δ, r.2) := by
  cases it with
  | num c' =>
    simp only [peStep, Except.map]
    rw [show c + δ + c' = c + c' + δ by ring]
  | varb v =>
    simp only [peStep, Except.map]
    by_cases h : mHas es v.name <;> simp [h]
  | lin c' v? =>
    cases v? with
    | none => rfl
    | some v =>
      simp only [peStep, Except.map]
      by_cases h : mHas es v.name <;> simp [h]
  | quad c' v1? v2? =>
    cases v1? with
    | none => cases v2? <;> rfl
    | some v1 =>
      cases v2? with
      | none => rfl
      | some v2 =>
        by_cases hB : mHas es ((if v1.name > v2.name then v2.name else v1.name)
            ++ "_***_" ++ (if v1.name > v2.name then v1.name else v2.name)) = true
        · simp only [peStep, Except.map]
          rw [if_pos hB, if_pos hB]
        · simp only [peStep, Except.map]
          rw [if_neg hB, if_neg hB]

theorem peFold_shift (m : Model) (items : List EItem) :
    ∀ (c δ : ℚ) (es : List (String × CTerm)),
    List.foldlM (peStep m) (c + δ, es) items =
      (List.foldlM (peStep m) (c, es) items).map fun r => (r.1 + δ, r.2) := by
  induction items with
  | nil => intro c δ es; rfl
  | cons it rest ih =>
    intro c δ es
    rw [List.foldlM_cons, List.foldlM_cons, peStep_shift]
    cases hstep : peStep m (c, es) it with
    | error e => rfl
    | ok r =>
      show List.foldlM (peStep m) (r.1 + δ, r.2) rest =
        ((Except.ok r : Except String (ℚ × List (String × CTerm))) >>= fun a =>
          List.foldlM (peStep m) a rest).map fun r => (r.1 + δ, r.2)
      rw [ih r.1 δ r.2]
      rfl

theorem peFold_ok (m : Model) (items : List EItem)
    (h : ∀ it ∈ items, ShapeOk it) :
    ∀ acc, ∃ r, List.foldlM (peStep m) acc items = .ok r := by
  induction items with
  | nil => intro acc; exact ⟨acc, rfl⟩
  | cons it rest ih =>
    intro acc
    have hit := h it (List.mem_cons_self it rest)
    have hrest := fun x hx => h x (List.mem_cons_of_mem it hx)
    have hstep : ∃ a, peStep m acc it = .ok a := by
      cases it with
      | num c => exact ⟨_, rfl⟩
      | varb v =>
        by_cases hc : mHas acc.2 v.name <;> simp [peStep, hc]
      | lin c v? =>
        cases v? with
        | none => exact absurd hit id
        | some v => by_cases hc : mHas acc.2 v.name <;> simp [peStep, hc]
      | quad c v1? v2? =>
        cases v1? with
        | none => exact absurd hit (by cases v2? <;> exact id)
        | some v1 =>
          cases v2? with
          | none => exact absurd hit id
          | some v2 =>
            by_cases hB : mHas acc.2 ((if v1.name > v2.name then v2.name else v1.name)
                ++ "_***_" ++ (if v1.name > v2.name then v1.name else v2.name)) = true
            · exact ⟨_, by simp only [peStep]; rw [if_pos hB]⟩
            · exact ⟨_, by simp only [peStep]; rw [if_neg hB]⟩
    obtain ⟨a, ha⟩ := hstep
    obtain ⟨r, hr⟩ := ih hrest a
    refine ⟨r, ?_⟩
    rw [List.foldlM_cons, ha]
    exact hr

theorem pe_bracket (m : Model) (l : List EItem) (a b a' b' : ℚ)
    (h : a + b = a' + b') :
    parseExpression m (.num a :: (l ++ [.num b])) =
      parseExpression m (.num a' :: (l ++ [.num b'])) := by
  have e1 : ∀ (a b : ℚ),
      List.foldlM (peStep m) ((0:ℚ), ([] : List (String × CTerm)))
        (EItem.num a :: (l ++ [EItem.num b])) =
      (List.foldlM (peStep m) ((0:ℚ), ([] : List (String × CTerm))) l).map
        fun r => (r.1 + (a + b), r.2) := by
    intro a b
    rw [List.foldlM_cons]
    show (List.foldlM (peStep m) ((0:ℚ) + a, ([] : List (String × CTerm)))
      (l ++ [EItem.num b])) = _
    rw [peFold_shift, List.foldlM_append]
    cases hG : List.foldlM (peStep m) ((0:ℚ), ([] : List (String × CTerm))) l with
    | error e => rfl
    | ok r =>
      show Except.ok (r.1 + b + a, r.2) = Except.ok (r.1 + (a + b), r.2)
      rw [show r.1 + b + a = r.1 + (a + b) from by ring]
  unfold parseExpression
  rw [e1 a b, e1 a' b', h]



theorem addConstr_ex_core (m : Model) (x y : Var) (E : List (String × CTerm))
    (hG : List.foldlM (peStep m) ((0:ℚ), ([] : List (String × CTerm)))
      [EItem.varb x, EItem.lin 2 (some y)] = .ok (0, E))
    (hsh : ∀ p ∈ E, ∃ c v, p.2 = CTerm.lin c v) :
    addConstr m [.varb x, .lin 2 (some y), .num 3] "<=" (.num 8) =
      addConstr m [.varb x, .lin 2 (some y)] "<=" (.num 5) := by
  set T : List CTerm := ((enumOrder E).filter fun p => p.2.coef ≠ 0).map (·.2) with hT
  have hpe2 : parseExpression m [.varb x, .lin 2 (some y)] =
      .ok { cst := 0, terms := T } := by
    unfold parseExpression
    rw [hG]
    rfl
  have hpe3 : parseExpression m [.varb x, .lin 2 (some y), .num 3] =
      .ok { cst := 3, terms := T } := by
    unfold parseExpression
    rw [show ([EItem.varb x, EItem.lin 2 (some y), EItem.num 3]) =
      [EItem.varb x, EItem.lin 2 (some y)] ++ [EItem.num 3] from rfl,
      List.foldlM_append, hG]
    show Except.ok ({ cst := (0:ℚ) + 3, terms := T } : CExpr) = _
    norm_num
  have hTsh : ∀ t ∈ T, ∃ c v, t = CTerm.lin c v := by
    intro t ht
    rw [hT] at ht
    obtain ⟨p, hp, hpt⟩ := List.mem_map.mp ht
    have hpE : p ∈ E := (enumOrder_perm E).mem_iff.mp (List.mem_of_mem_filter hp)
    obtain ⟨c, v, he⟩ := hsh p hpE
    exact ⟨c, v, by rw [← hpt, he]⟩
  have hshape : ∀ it ∈ (EItem.num 0 ::
      ((({ cst := 0, terms := T } : CExpr).terms.map fun t =>
        match t with
        | CTerm.lin c v => EItem.lin c (some v)
        | CTerm.quad c v1 v2 => EItem.quad c v1 v2) ++ [EItem.num (-5)])),
      ShapeOk it := by
    intro it hit
    rcases List.mem_cons.mp hit with he | hm
    · rw [he]; trivial
    · rcases List.mem_append.mp hm with hm | hm
      · obtain ⟨t, ht, rfl⟩ := List.mem_map.mp hm
        obtain ⟨c, v, rfl⟩ := hTsh t ht
        trivial
      · simp only [List.mem_singleton] at hm
        rw [hm]; trivial
  -- success of the combined parse on the right-hand version
  obtain ⟨r, hr⟩ := peFold_ok m _ hshape ((0:ℚ), ([] : List (String × CTerm)))
  have hfin2 : parseExpression m
      (({ cst := 0, terms := T } : CExpr).items ++
        (({ cst := 5, terms := [] } : CExpr).neg).items) =
      .ok { cst := r.1, terms := ((enumOrder r.2).filter fun p => p.2.coef ≠ 0).map (·.2) } := by
    show parseExpression m (EItem.num 0 ::
      ((T.map fun t => match t with
        | CTerm.lin c v => EItem.lin c (some v)
        | CTerm.quad c v1 v2 => EItem.quad c v1 v2) ++ [EItem.num (-5)])) = _
    unfold parseExpression
    rw [hr]
    rfl
  have hbr : parseExpression m
      (({ cst := 3, terms := T } : CExpr).items ++
        (({ cst := 8, terms := [] } : CExpr).neg).items) =
      parseExpression m
      (({ cst := 0, terms := T } : CExpr).items ++
        (({ cst := 5, terms := [] } : CExpr).neg).items) := by
    show parseExpression m (EItem.num 3 ::
        ((T.map _) ++ [EItem.num (-8)])) =
      parseExpression m (EItem.num 0 :: ((T.map _) ++ [EItem.num (-5)]))
    exact pe_bracket m _ 3 (-8) 0 (-5) (by norm_num)
  have hfin1 := hbr.trans hfin2
  rw [addConstr_eval m _ "<=" (.num 8) { cst := 3, terms := T }
      { cst := 8, terms := [] } _ hpe3 rfl rfl hfin1,
    addConstr_eval m _ "<=" (.num 5) { cst := 0, terms := T }
      { cst := 5, terms := [] } _ hpe2 rfl rfl hfin2]


theorem addConstr_example (m : Model) (x y : Var) :
    addConstr m [.varb x, .lin 2 (some y), .num 3] "<=" (.num 8) =
      addConstr m [.varb x, .lin 2 (some y)] "<=" (.num 5) := by
  by_cases hxy : x.name = y.name
  · refine addConstr_ex_core m x y [(y.name, CTerm.lin 3 x)] ?_ ?_
    · simp only [List.foldlM_cons, List.foldlM_nil, peStep, mHas, mGet, bind,
        Except.bind, hxy, Option.isSome_none, Option.isSome_some, if_true,
        if_false, Bool.false_eq_true, mAdjust, CTerm.addCoef]
      norm_num
      rfl
    · intro p hp
      simp only [List.mem_singleton] at hp
      exact ⟨3, x, by rw [hp]⟩
  · refine addConstr_ex_core m x y
      [(x.name, CTerm.lin 1 x), (y.name, CTerm.lin 2 y)] ?_ ?_
    · simp only [List.foldlM_cons, List.foldlM_nil, peStep, mHas, mGet, bind,
        Except.bind, hxy, Option.isSome_none, Option.isSome_some, if_true,
        if_false, Bool.false_eq_true]
      rfl
    · intro p hp
      rcases List.mem_cons.mp hp with he | hm
      · exact ⟨1, x, by rw [he]⟩
      · simp only [List.mem_singleton] at hm
        exact ⟨2, y, by rw [hm]⟩

/-- C3.  For every constraint added via `addConstr` with a valid
operator (on linear-only, embedding-exact input): the call succeeds; the
stored left-hand expression has constant slot exactly zero; the stored
right-hand value is the right side's constant content minus the left
side's (i.e. the negation of the merged expression's constant); every
variable's stored coefficient is its left-side contribution minus its
right-side contribution (right-side terms negated and merged); the
constraint is appended to the model; and in particular
`addConstr([x,[2,y],3], "<=", 8)` equals
`addConstr([x,[2,y]], "<=", 5)`. -/
theorem C3_addConstr (m : Model) (lhs : List EItem) (op : String) (rhs : RhsArg)
    (hop : op = "<=" ∨ op = "=" ∨ op = ">=" ∨ op = "==")
    (hl : ∀ it ∈ lhs, LinItem it)
    (hr : ∀ its, rhs = RhsArg.expr its → ∀ it ∈ its, LinItem it) :
    ∃ (m' : Model) (c : Constr),
      addConstr m lhs op rhs = .ok (m', c) ∧
      c.lhs.cst = 0 ∧
      c.rhs = rhsConstSum rhs - (lhs.map itemConst).sum ∧
      (∀ k, termCoefLin k c.lhs.terms = contribSum lhs k - rhsContrib rhs k) ∧
      m' = { m with constraints := m.constraints ++ [c] } ∧
      (∀ x y : Var,
        addConstr m [.varb x, .lin 2 (some y), .num 3] "<=" (.num 8) =
          addConstr m [.varb x, .lin 2 (some y)] "<=" (.num 5)) := by
  obtain ⟨lhsE, hlE, hlc, hlk, _, _, hlsh⟩ := parseExpression_linear m lhs hl
  have hrhs : ∃ rhsE : CExpr,
      (match rhs with
        | RhsArg.num q => pure ({ cst := q, terms := [] } : CExpr)
        | RhsArg.expr items => parseExpression m items) = Except.ok rhsE ∧
      rhsE.cst = rhsConstSum rhs ∧
      (∀ k, termCoefLin k rhsE.terms = rhsContrib rhs k) ∧
      (∀ t ∈ rhsE.terms, ∃ c v, t = CTerm.lin c v ∧ okName v.name) := by
    cases rhs with
    | num q =>
      exact ⟨{ cst := q, terms := [] }, rfl, rfl,
        fun k => by simp [termCoefLin, rhsContrib], by simp⟩
    | expr its =>
      obtain ⟨e, he, hc, hk, _, _, hsh⟩ := parseExpression_linear m its (hr its rfl)
      exact ⟨e, he, hc, fun k => hk k, hsh⟩
  obtain ⟨rhsE, hrE, hrc, hrk, hrsh⟩ := hrhs
  have hnegsh := neg_shapes rhsE hrsh
  have hcomb : ∀ it ∈ lhsE.items ++ rhsE.neg.items, LinItem it := by
    intro it hit
    rcases List.mem_append.mp hit with hm | hm
    · exact linItem_items lhsE hlsh it hm
    · exact linItem_items rhsE.neg hnegsh it hm
  obtain ⟨fin, hfin, hfc, hfk, _, _, _⟩ :=
    parseExpression_linear m (lhsE.items ++ rhsE.neg.items) hcomb
  have h3 : ((["<=", "=", ">="] : List String).contains
      (if op = "==" then "=" else op)) = true := by
    rcases hop with rfl | rfl | rfl | rfl <;> rfl
  have heval := addConstr_eval m lhs op rhs lhsE rhsE fin hlE hrE h3 hfin
  have hfc' : fin.cst = lhsE.cst - rhsE.cst := by
    rw [hfc, itemConst_sum_append, itemConst_sum_items, itemConst_sum_items]
    show lhsE.cst + -rhsE.cst = _
    ring
  refine ⟨_, _, heval, rfl, ?_, ?_, rfl, fun x y => addConstr_example m x y⟩
  · show -fin.cst = rhsConstSum rhs - (lhs.map itemConst).sum
    rw [hfc', hlc, hrc]
    ring
  · intro k
    show termCoefLin k fin.terms = _
    rw [hfk k, contribSum_append, contribSum_items lhsE hlsh,
      contribSum_items rhsE.neg hnegsh, termCoefLin_neg, hlk k, hrk k]
    ring

/-- Witness for `C3_addConstr` at a concrete input. -/
theorem C3_addConstr_witness :
    ("<=" = "<=" ∨ "<=" = "=" ∨ "<=" = ">=" ∨ "<=" = "==") ∧
    (∀ it ∈ ([.varb wVarX, .lin 2 (some wVarY), .num 3] : List EItem), LinItem it) ∧
    (∀ its, RhsArg.num 8 = RhsArg.expr its → ∀ it ∈ its, LinItem it) ∧
    (∃ (m' : Model) (c : Constr),
      addConstr wModelXY [.varb wVarX, .lin 2 (some wVarY), .num 3] "<=" (.num 8) =
        .ok (m', c) ∧
      c.lhs.cst = 0 ∧
      c.rhs = rhsConstSum (.num 8) -
        (([.varb wVarX, .lin 2 (some wVarY), .num 3] : List EItem).map itemConst).sum ∧
      (∀ k, termCoefLin k c.lhs.terms =
        contribSum [.varb wVarX, .lin 2 (some wVarY), .num 3] k -
          rhsContrib (.num 8) k) ∧
      m' = { wModelXY with constraints := wModelXY.constraints ++ [c] } ∧
      (∀ x y : Var,
        addConstr wModelXY [.varb x, .lin 2 (some y), .num 3] "<=" (.num 8) =
          addConstr wModelXY [.varb x, .lin 2 (some y)] "<=" (.num 5))) :=
  ⟨Or.inl rfl, by decide, by intro its h; simp at h,
    C3_addConstr wModelXY _ "<=" (.num 8) (Or.inl rfl) (by decide)
      (by intro its h; simp at h)⟩

/-! ## Claim theorems: solve-session reset and the bridges -/

def staleModel : Model :=
  { Model.init with status := some (.str "Optimal"), ObjVal := some 17 }

/-- C4, counterexample.  The claim says `status` is reset to null at the
start of every solve; but a solve on an engine handle matching none of
the probes returns with the previous status still in place (`solveClear`
never touches `status`). -/
theorem C4_counterexample :
    solve staleModel Engine.other = .ok (solveClear staleModel) ∧
    (solveClear staleModel).status = some (.str "Optimal") :=
  ⟨rfl, rfl⟩

/-- C4 (amended).  At the start of every solve call the solve-session
fields `solution`, `ObjVal`, every variable's `value`, and every
constraint's `primal` and `dual` are reset to null — but the `status`
field is *not* reset; it keeps its previous value until a decoder
overwrites it.  A solve on an unrecognized engine handle returns exactly
the cleared model. -/
theorem C4_solveClear (m : Model) :
    (solveClear m).solution = none ∧
    (solveClear m).ObjVal = none ∧
    (∀ p ∈ (solveClear m).vars, p.2.value = none) ∧
    (∀ c ∈ (solveClear m).constraints, c.primal = none ∧ c.dual = none) ∧
    (solveClear m).status = m.status ∧
    solve m Engine.other = .ok (solveClear m) := by
  refine ⟨rfl, rfl, ?_, ?_, rfl, rfl⟩
  · intro p hp
    obtain ⟨q, _, rfl⟩ := List.mem_map.mp hp
    rfl
  · intro c hc
    obtain ⟨d, _, rfl⟩ := List.mem_map.mp hc
    exact ⟨rfl, rfl⟩

/-- Witness for `C4_solveClear` at a concrete input. -/
theorem C4_solveClear_witness :
    (solveClear staleModel).solution = none ∧
    (solveClear staleModel).ObjVal = none ∧
    (∀ p ∈ (solveClear staleModel).vars, p.2.value = none) ∧
    (∀ c ∈ (solveClear staleModel).constraints, c.primal = none ∧ c.dual = none) ∧
    (solveClear staleModel).status = staleModel.status ∧
    solve staleModel Engine.other = .ok (solveClear staleModel) :=
  C4_solveClear staleModel

/-- The model `maximize x + 2 subject to x <= 3` used by the
objective-constant claim. -/
def objModel : Model :=
  { Model.init with
    vars := [("x", wVarX)]
    objective := { expression := { cst := 2, terms := [.lin 1 wVarX] },
                   sense := "MAXIMIZE" }
    constraints := [{ lhs := { cst := 0, terms := [.lin 1 wVarX] },
                      comparison := "<=", rhs := 3 }] }

def highsOptSol : HighsSolution :=
  { Status := "Optimal"
    Columns := [("x", { Primal := 3 })]
    Rows := [{ Name := "c1", Primal := 3, Dual := some 0 }] }

def glpkOptSol : GLPKSolution :=
  { result := { status := 5, z := 3, vars := [("x", 3)], dual := none } }

def jslpOptSol : JSLPSolution :=
  { feasible := true, bounded := true, result := 3, vars := [("x", 3)] }

/-- C5.  With objective `x + 2`, constraint `x <= 3`, maximize, and an
engine report of objective value `3`: the claim demands a reported
objective value of `5` from every bridge, but the HiGHS and glpk.js
decoders never write `ObjVal` at all (it stays null); only the
jsLPSolver decoder adds the model's constant back. -/
theorem C5_objval_only_jslp :
    (solve objModel (Engine.highs highsOptSol)).map Model.ObjVal = .ok none ∧
    (solve objModel (Engine.glpk glpkOptSol)).map Model.ObjVal = .ok none ∧
    (solve objModel (Engine.jslp jslpOptSol)).map Model.ObjVal = .ok (some 5) := by
  refine ⟨rfl, rfl, ?_⟩
  show Except.ok (some ((3:ℚ) + 2)) = Except.ok (some 5)
  norm_num

def glpkNofeasSol : GLPKSolution :=
  { result := { status := 4, z := 0, vars := [("x", 0)], dual := none } }

/-- C6.  The glpk.js decoder stores the engine's raw numeric
result-status (here `GLP_NOFEAS = 4`) in the model's `status` field; it
is not mapped to any of the strings
`{Optimal, Feasible, Infeasible, Unbounded, Undefined}`. -/
theorem C6_status_unmapped :
    (solve objModel (Engine.glpk glpkNofeasSol)).map Model.status =
      .ok (some (SVal.num 4)) ∧
    (∀ s : String,
      (readGLPKSolution (solveClear objModel) glpkNofeasSol).status ≠
        some (SVal.str s)) := by
  refine ⟨rfl, ?_⟩
  intro s h
  have : some (SVal.num 4) = some (SVal.str s) := h
  simp at this

/-- A quadratic model (`maximize x*x`) with its variable registered. -/
def quadModel : Model :=
  { Model.init with
    vars := [("x", wVarX)]
    objective :=
      { expression := { cst := 0, terms := [.quad 1 (some wVarX) (some wVarX)] }
        sense := "MAXIMIZE" } }

/-- C7, counterexample.  The claim says both JSON-schema bridges fail
with a quadratic-unsupported error on quadratic models; but the
jsLPSolver encoder performs no quadratic check and happily produces a
request for a quadratic model. -/
theorem C7_counterexample :
    isQuadratic quadModel = true ∧
    (∃ r, toJSLPSolverFormat quadModel = .ok r) :=
  ⟨rfl, ⟨_, rfl⟩⟩

/-- C7 (amended).  Encoding a quadratic model for the glpk.js bridge
fails with the quadratic-unsupported error; the jsLPSolver bridge
performs no such check and produces a request (shown on the registered
quadratic example model). -/
theorem C7_quadratic_gate (m : Model) (h : isQuadratic m = true) :
    Model.toGLPKFormat m = .error "GLPK.js does not support quadratic models." ∧
    (∃ r, toJSLPSolverFormat quadModel = .ok r) := by
  refine ⟨?_, ⟨_, rfl⟩⟩
  unfold Model.toGLPKFormat
  rw [if_pos h]

/-- Witness for `C7_quadratic_gate` at a concrete input. -/
theorem C7_quadratic_gate_witness :
    isQuadratic quadModel = true ∧
    (Model.toGLPKFormat quadModel =
      .error "GLPK.js does not support quadratic models." ∧
    (∃ r, toJSLPSolverFormat quadModel = .ok r)) :=
  ⟨rfl, C7_quadratic_gate quadModel rfl⟩

/-- C10.  When the HiGHS decoder receives a solution whose status is
neither `Optimal` nor `Feasible`, it stores the status and returns,
leaving the variables, constraints, objective value, and raw solution
exactly as they were. -/
theorem C10_highs_nonoptimal_frame (m : Model) (sol : HighsSolution)
    (h1 : sol.Status ≠ "Optimal") (h2 : sol.Status ≠ "Feasible") :
    readHighsSolution m sol = { m with status := some (.str sol.Status) } ∧
    (readHighsSolution m sol).vars = m.vars ∧
    (readHighsSolution m sol).constraints = m.constraints ∧
    (readHighsSolution m sol).ObjVal = m.ObjVal ∧
    (readHighsSolution m sol).solution = m.solution := by
  have he : readHighsSolution m sol = { m with status := some (.str sol.Status) } := by
    unfold readHighsSolution
    rw [if_pos ⟨h1, h2⟩]
  exact ⟨he, by rw [he], by rw [he], by rw [he], by rw [he]⟩

def highsInfeasSol : HighsSolution :=
  { Status := "Infeasible", Columns := [], Rows := [] }

/-- Witness for `C10_highs_nonoptimal_frame` at a concrete input. -/
theorem C10_highs_nonoptimal_frame_witness :
    highsInfeasSol.Status ≠ "Optimal" ∧
    highsInfeasSol.Status ≠ "Feasible" ∧
    (readHighsSolution objModel highsInfeasSol =
        { objModel with status := some (.str highsInfeasSol.Status) } ∧
      (readHighsSolution objModel highsInfeasSol).vars = objModel.vars ∧
      (readHighsSolution objModel highsInfeasSol).constraints =
        objModel.constraints ∧
      (readHighsSolution objModel highsInfeasSol).ObjVal = objModel.ObjVal ∧
      (readHighsSolution objModel highsInfeasSol).solution =
        objModel.solution) :=
  ⟨by decide, by decide,
    C10_highs_nonoptimal_frame objModel highsInfeasSol (by decide) (by decide)⟩

/-! ## The grammar-driven format reader (`parse-lp-format.peggy`)

Each rule becomes a function `List Char → Option (value × rest)`
implementing the PEG semantics (ordered choice with local backtracking,
greedy repetition, negative lookahead, case-insensitive literals).
Repetition loops carry a fuel of one more than the input length; every
iteration of a grammar repetition consumes at least one character, so
the fuel never runs out on a successful parse. -/

def isWSChar (c : Char) : Bool :=
  c = ' ' || c = '\t' || c = '\n' || c = '\r'

/-- The punctuation allowed in `VariableName` besides letters (and,
after the first character, digits). -/
def namePunct : List Char :=
  ['!', '\"', '#', '$', '%', '&', '\'', '(', ')', '*', '+', ',', '.', '/',
   ';', '?', '@', '_', '\x60', '\x7b', '|', '\x7d', '~']

def isNameStart (c : Char) : Bool := c.isAlpha || namePunct.contains c

def isNameChar (c : Char) : Bool :=
  c.isAlpha || c.isDigit || namePunct.contains c

/-- Case-insensitive character comparison (the `"..."i` literals). -/
def lowEq (a b : Char) : Bool := a.toLower = b.toLower

/-- Case-sensitive literal. -/
def pLit : List Char → List Char → Option (List Char)
  | [], s => some s
  | _ :: _, [] => none
  | l :: lt, c :: ct => if c = l then pLit lt ct else none

/-- Case-insensitive literal. -/
def pLitCI : List Char → List Char → Option (List Char)
  | [], s => some s
  | _ :: _, [] => none
  | l :: lt, c :: ct => if lowEq c l then pLitCI lt ct else none

def wsDrop : List Char → List Char
  | [] => []
  | c :: t => if isWSChar c then wsDrop t else c :: t

/-- `[^\n]* "\n"`: drop to just past the next newline; fails at end of
input (the comment group then fails and is backtracked). -/
def dropToNL : List Char → Option (List Char)
  | [] => none
  | c :: t => if c = '\n' then some t else dropToNL t

def cmtLoop : ℕ → List Char → List Char
  | 0, s => s
  | f + 1, s =>
    match s with
    | '\\' :: t =>
      match dropToNL t with
      | some t' => cmtLoop f (wsDrop t')
      | none => '\\' :: t
    | s => s

/-- The `_` rule: whitespace and backslash line comments. -/
def skipWS (s : List Char) : List Char := cmtLoop (s.length + 1) (wsDrop s)

def digitsTake : List Char → List Char × List Char
  | [] => ([], [])
  | c :: t =>
    if c.isDigit then
      let (r, rest) := digitsTake t
      (c :: r, rest)
    else ([], c :: t)

def digitsToNat (ds : List Char) : ℕ :=
  ds.foldl (fun a c => a * 10 + (c.toNat - '0'.toNat)) 0

/-- The `Number` rule: `[0-9]+ ("." [0-9]+)? ("e"i [+-]? [0-9]+)?` with
`parseFloat` semantics (exact on `ℚ`). -/
def pNumber (s : List Char) : Option (ℚ × List Char) :=
  let (ip, r1) := digitsTake s
  if ip = [] then none
  else
    let (fd, r2) :=
      match r1 with
      | '.' :: t =>
        let (fd, rest) := digitsTake t
        if fd = [] then (([] : List Char), r1) else (fd, rest)
      | _ => ([], r1)
    let (ev, r3) :=
      match r2 with
      | c :: t =>
        if c = 'e' ∨ c = 'E' then
          let (sgn, t2) : ℤ × List Char :=
            match t with
            | '+' :: u => (1, u)
            | '-' :: u => (-1, u)
            | u => (1, u)
          let (ed, rest) := digitsTake t2
          if ed = [] then ((0 : ℤ), r2) else (sgn * digitsToNat ed, rest)
        else ((0 : ℤ), r2)
      | [] => ((0 : ℤ), r2)
    some (((digitsToNat ip : ℚ) + (digitsToNat fd : ℚ) / 10 ^ fd.length) *
      10 ^ ev, r3)

/-- The `SignedNumber` rule. -/
def pSignedNumber (s : List Char) : Option (ℚ × List Char) :=
  match s with
  | '+' :: t => pNumber t
  | '-' :: t => (pNumber t).map fun qr => (-qr.1, qr.2)
  | _ => pNumber s

/-- The value of the `InfinityNumber` rule. -/
inductive InfNum
  | ninf
  | pinf
  | num (q : ℚ)
deriving DecidableEq, Repr

def pInfinity (s : List Char) : Option (InfNum × List Char) :=
  match pLitCI "-infinity".data s with
  | some r => some (.ninf, r)
  | none =>
    match pLitCI "+infinity".data s with
    | some r => some (.pinf, r)
    | none =>
      match pLitCI "-inf".data s with
      | some r => some (.ninf, r)
      | none =>
        match pLitCI "+inf".data s with
        | some r => some (.pinf, r)
        | none => (pSignedNumber s).map fun qr => (.num qr.1, qr.2)

/-- The negative lookaheads of `VariableName`: `!BinaryHeader
!GeneralHeader !"End"i`. -/
def headerGuard (s : List Char) : Bool :=
  (pLitCI "Binary".data s).isSome || (pLitCI "Binaries".data s).isSome ||
  (pLitCI "Bin".data s).isSome ||
  (pLitCI "Generals".data s).isSome || (pLitCI "General".data s).isSome ||
  (pLitCI "Gen".data s).isSome ||
  (pLitCI "End".data s).isSome

def nameTake : List Char → List Char × List Char
  | [] => ([], [])
  | c :: t =>
    if isNameChar c then
      let (r, rest) := nameTake t
      (c :: r, rest)
    else ([], c :: t)

/-- The `VariableName` rule. -/
def pVarName (s : List Char) : Option (String × List Char) :=
  if headerGuard s then none
  else
    match s with
    | [] => none
    | c :: t =>
      if isNameStart c then
        let (r, rest) := nameTake t
        some (⟨c :: r⟩, rest)
      else none

/-- A parsed term `{coefficient, variable}` (`variable` is null for a
bare number). -/
structure PTerm where
  coefficient : ℚ
  varName : Option String
deriving DecidableEq, Repr

/-- The `Term` rule: `coefficient variable / variable / number`. -/
def pTerm (s : List Char) : Option (PTerm × List Char) :=
  match pNumber s with
  | some (c, r1) =>
    match pVarName (skipWS r1) with
    | some (v, r2) => some ({ coefficient := c, varName := some v }, r2)
    | none =>
      match pVarName s with
      | some (v, r) => some ({ coefficient := 1, varName := some v }, r)
      | none => (pNumber s).map fun nr =>
          ({ coefficient := nr.1, varName := none }, nr.2)
  | none =>
    match pVarName s with
    | some (v, r) => some ({ coefficient := 1, varName := some v }, r)
    | none => (pNumber s).map fun nr =>
        ({ coefficient := nr.1, varName := none }, nr.2)

/-- The `TermWithSign` rule: `sign _ term` with
`(sign === '+' ? 1 : -1) * Math.abs(coefficient)`. -/
def pTermSign (s : List Char) : Option (PTerm × List Char) :=
  match s with
  | '+' :: t => (pTerm (skipWS t)).map fun tr =>
      ({ tr.1 with coefficient := |tr.1.coefficient| }, tr.2)
  | '-' :: t => (pTerm (skipWS t)).map fun tr =>
      ({ tr.1 with coefficient := -|tr.1.coefficient| }, tr.2)
  | _ => none

def pAnyTerm (s : List Char) : Option (PTerm × List Char) :=
  match pTermSign s with
  | some r => some r
  | none => pTerm s

/-- The `rest` loop of `Expression`:
`(_ ("+" or "-") _ (TermWithSign / Term))*`, negating on `-`. -/
def exprLoop : ℕ → List Char → List PTerm → List PTerm × List Char
  | 0, s, acc => (acc, s)
  | f + 1, s, acc =>
    match skipWS s with
    | c :: t =>
      if c = '+' ∨ c = '-' then
        match pAnyTerm (skipWS t) with
        | some (tm, r) =>
          let tm := if c = '-' then { tm with coefficient := -tm.coefficient }
            else tm
          exprLoop f r (acc ++ [tm])
        | none => (acc, s)
      else (acc, s)
    | [] => (acc, s)

/-- The `Expression` rule. -/
def pExpr (s : List Char) : Option (List PTerm × List Char) :=
  match pAnyTerm s with
  | some (tm, r) => some (exprLoop (r.length + 1) r [tm])
  | none => none

/-- The `ConstraintSense` rule.  In peggy the action is attached only to
the last alternative `"<"`; the others return their matched text, so
`"=<"` and `"=>"` are never normalized (and `"="` matches first on any
input starting with `=`), and a bare `">"` is not an alternative at
all. -/
def pSense (s : List Char) : Option (String × List Char) :=
  match pLit "<=".data s with
  | some r => some ("<=", r)
  | none =>
    match pLit ">=".data s with
    | some r => some (">=", r)
    | none =>
      match pLit "=".data s with
      | some r => some ("=", r)
      | none =>
        match pLit "=<".data s with
        | some r => some ("=<", r)
        | none =>
          match pLit "=>".data s with
          | some r => some ("=>", r)
          | none =>
            match pLit "<".data s with
            | some r => some ("<=", r)
            | none => none

structure PConstraint where
  name : Option String
  expression : List PTerm
  sense : String
  value : ℚ
deriving DecidableEq, Repr

/-- The `Constraint` rule. -/
def pConstraint (s : List Char) : Option (PConstraint × List Char) :=
  let ns :=
    match pVarName s with
    | some (v, r) =>
      match pLit ":".data r with
      | some r2 => (some v, r2)
      | none => ((none : Option String), s)
    | none => ((none : Option String), s)
  match pExpr (skipWS ns.2) with
  | none => none
  | some (terms, r3) =>
    match pSense (skipWS r3) with
    | none => none
    | some (sn, r5) =>
      match pSignedNumber (skipWS r5) with
      | none => none
      | some (v, r6) =>
        some ({ name := ns.1, expression := terms, sense := sn, value := v },
          skipWS r6)

def constrLoop : ℕ → List Char → List PConstraint × List Char
  | 0, s => ([], s)
  | f + 1, s =>
    match pConstraint s with
    | none => ([], s)
    | some (c, r) =>
      let (cs, r2) := constrLoop f r
      (c :: cs, r2)

/-- The `Constraints` rule: section header then `Constraint+`. -/
def pConstraints (s : List Char) : Option (List PConstraint × List Char) :=
  let hd :=
    match pLitCI "Subject To".data s with
    | some r => some r
    | none =>
      match pLitCI "ST".data s with
      | some r => some r
      | none => pLitCI "S.T.".data s
  match hd with
  | none => none
  | some r =>
    match pConstraint (skipWS r) with
    | none => none
    | some (c, r2) =>
      let (cs, r3) := constrLoop (r2.length + 1) r2
      some (c :: cs, r3)

inductive PBound
  | free (v : String)
  | range (v : String) (lower upper : InfNum)
  | upperOnly (v : String) (upper : InfNum)
  | lowerOnly (v : String) (lower : InfNum)
deriving DecidableEq, Repr

/-- The `Bound` rule (four ordered alternatives). -/
def pBound (s : List Char) : Option (PBound × List Char) :=
  let alt1 :=
    match pVarName s with
    | some (v, r) =>
      match pLitCI "free".data (skipWS r) with
      | some r2 => some (PBound.free v, skipWS r2)
      | none => none
    | none => none
  match alt1 with
  | some r => some r
  | none =>
    let alt2 :=
      match pInfinity s with
      | some (lo, r) =>
        match pLit "<=".data (skipWS r) with
        | some r2 =>
          match pVarName (skipWS r2) with
          | some (v, r3) =>
            match pLit "<=".data (skipWS r3) with
            | some r4 =>
              match pInfinity (skipWS r4) with
              | some (hi, r5) => some (PBound.range v lo hi, skipWS r5)
              | none => none
            | none => none
          | none => none
        | none => none
      | none => none
    match alt2 with
    | some r => some r
    | none =>
      let alt3 :=
        match pVarName s with
        | some (v, r) =>
          match pLit "<=".data (skipWS r) with
          | some r2 =>
            match pInfinity (skipWS r2) with
            | some (hi, r3) => some (PBound.upperOnly v hi, skipWS r3)
            | none => none
          | none => none
        | none => none
      match alt3 with
      | some r => some r
      | none =>
        match pInfinity s with
        | some (lo, r) =>
          match pLit "<=".data (skipWS r) with
          | some r2 =>
            match pVarName (skipWS r2) with
            | some (v, r3) => some (PBound.lowerOnly v lo, skipWS r3)
            | none => none
          | none => none
        | none => none

def boundLoop : ℕ → List Char → List PBound × List Char
  | 0, s => ([], s)
  | f + 1, s =>
    match pBound s with
    | none => ([], s)
    | some (b, r) =>
      let (bs, r2) := boundLoop f r
      (b :: bs, r2)

/-- The `Bounds` rule: `"Bounds"i _ Bound+`. -/
def pBounds (s : List Char) : Option (List PBound × List Char) :=
  match pLitCI "Bounds".data s with
  | none => none
  | some r =>
    match pBound (skipWS r) with
    | none => none
    | some (b, r2) =>
      let (bs, r3) := boundLoop (r2.length + 1) r2
      some (b :: bs, r3)

def nameListLoop : ℕ → List Char → List String × List Char
  | 0, s => ([], s)
  | f + 1, s =>
    match pVarName s with
    | none => ([], s)
    | some (v, r) =>
      let (vs, r2) := nameListLoop f (skipWS r)
      (v :: vs, r2)

/-- The `General` rule: `GeneralHeader _ (VariableName _)+`. -/
def pGeneral (s : List Char) : Option (List String × List Char) :=
  let hd :=
    match pLitCI "Generals".data s with
    | some r => some r
    | none =>
      match pLitCI "General".data s with
      | some r => some r
      | none => pLitCI "Gen".data s
  match hd with
  | none => none
  | some r =>
    match pVarName (skipWS r) with
    | none => none
    | some (v, r2) =>
      let (vs, r3) := nameListLoop (r2.length + 1) (skipWS r2)
      some (v :: vs, r3)

/-- The `Binary` rule: `BinaryHeader _ (VariableName _)+`. -/
def pBinary (s : List Char) : Option (List String × List Char) :=
  let hd :=
    match pLitCI "Binary".data s with
    | some r => some r
    | none =>
      match pLitCI "Binaries".data s with
      | some r => some r
      | none => pLitCI "Bin".data s
  match hd with
  | none => none
  | some r =>
    match pVarName (skipWS r) with
    | none => none
    | some (v, r2) =>
      let (vs, r3) := nameListLoop (r2.length + 1) (skipWS r2)
      some (v :: vs, r3)

structure PObjective where
  type : String
  name : Option String
  expression : List PTerm
deriving DecidableEq, Repr

/-- The `Objective` rule. -/
def pObjective (s : List Char) : Option (PObjective × List Char) :=
  let hd :=
    match pLitCI "Maximize".data s with
    | some r => some (("max", r))
    | none =>
      match pLitCI "Minimize".data s with
      | some r => some (("min", r))
      | none =>
        match pLitCI "MAX".data s with
        | some r => some (("max", r))
        | none =>
          match pLitCI "MIN".data s with
          | some r => some (("min", r))
          | none => none
  match hd with
  | none => none
  | some (ty, r) =>
    let s1 := skipWS r
    let ns :=
      match pVarName s1 with
      | some (v, r1) =>
        match pLit ":".data r1 with
        | some r2 => (some v, r2)
        | none => ((none : Option String), s1)
      | none => ((none : Option String), s1)
    match pExpr (skipWS ns.2) with
    | none => none
    | some (terms, r3) =>
      some ({ type := ty, name := ns.1, expression := terms }, r3)

structure PFile where
  objective : PObjective
  constraints : List PConstraint
  bounds : List PBound
  general : List String
  binary : List String
deriving DecidableEq, Repr

/-- The `LPFile` start rule; as in peggy, the whole input must be
consumed. -/
def pLPFile (s : List Char) : Option PFile :=
  match pObjective (skipWS s) with
  | none => none
  | some (obj, r1) =>
    match pConstraints (skipWS r1) with
    | none => none
    | some (cs, r2) =>
      let bsr :=
        match pBounds (skipWS r2) with
        | some br => br
        | none => ([], skipWS r2)
      let gr :=
        match pGeneral (skipWS bsr.2) with
        | some gr => gr
        | none => ([], skipWS bsr.2)
      let br :=
        match pBinary (skipWS gr.2) with
        | some br => br
        | none => ([], skipWS gr.2)
      match pLitCI "End".data (skipWS br.2) with
      | none => none
      | some r9 =>
        if skipWS r9 = [] then
          some { objective := obj, constraints := cs, bounds := bsr.1,
                 general := gr.1, binary := br.1 }
        else none

/-! ## `fromLPFormat` (from `read-lp-format.js`) -/

/-- Modelled from the spec: `Model.clear` is called by `fromLPFormat`
("Clears the model, then adds variables and constraints taken from a
string"), but its definition is not among the provided sources; the
spec describes parse-from-text as replacing the current contents, so
`clear` restores the constructor state. -/
def Model.clear (_m : Model) : Model := Model.init

def infToBVal : InfNum → BVal
  | .ninf => .ninf
  | .pinf => .pinf
  | .num q => .num q

/-- Variable creation for one parsed `Bounds` entry: the matched form's
fields become the `addVar` options. -/
def applyBound (m : Model) (b : PBound) : Except String Model :=
  match b with
  | .free v => (addVar m { name := some v, lb := some .ninf, ub := some .pinf }).map (·.1)
  | .range v lo hi =>
    (addVar m { name := some v, lb := some (infToBVal lo),
                ub := some (infToBVal hi) }).map (·.1)
  | .upperOnly v hi =>
    (addVar m { name := some v, ub := some (infToBVal hi) }).map (·.1)
  | .lowerOnly v lo =>
    (addVar m { name := some v, lb := some (infToBVal lo) }).map (·.1)

/-- The variable names referenced by the objective and the constraints,
in `Set` insertion order (a constant term contributes the JS `null`,
here `none`). -/
def collectVars (p : PFile) : List (Option String) :=
  (p.objective.expression.map (·.varName) ++
    (p.constraints.map (·.expression.map (·.varName))).flatten).foldl
    (fun acc v => if v ∈ acc then acc else acc ++ [v]) []

/-- `fromLPFormat`: parse, clear, create variables from `Bounds`, mark
kinds from `Binary`/`General` (creating missing variables), create the
remaining referenced variables, then rebuild the objective and the
constraints through the canonicalizer and constraint builder. -/
def fromLPFormat (m : Model) (lpString : String) : Except String Model :=
  match pLPFile lpString.data with
  | none => .error "ParseError"
  | some p => do
    let m := m.clear
    let m ← p.bounds.foldlM applyBound m
    let m ← p.binary.foldlM (fun m v =>
      if mHas m.vars v then
        .ok { m with vars := mAdjust m.vars v fun x => { x with vtype := "BINARY" } }
      else
        (addVar m { name := some v, vtype := some "BINARY" }).map (·.1)) m
    let m ← p.general.foldlM (fun m v =>
      if mHas m.vars v then
        .ok { m with vars := mAdjust m.vars v fun x => { x with vtype := "INTEGER" } }
      else
        (addVar m { name := some v, vtype := some "INTEGER" }).map (·.1)) m
    let m ← (collectVars p).foldlM (fun m v? =>
      match v? with
      | some v =>
        if mHas m.vars v then .ok m else (addVar m { name := some v }).map (·.1)
      | none => (addVar m {}).map (·.1)) m
    let objItems := p.objective.expression.map fun t =>
      EItem.lin t.coefficient (match t.varName with
        | some v => mGet m.vars v
        | none => none)
    let m ← setObjective m objItems
      (if p.objective.type = "max" then "MAXIMIZE" else "MINIMIZE")
    let m ← p.constraints.foldlM (fun m c =>
      (addConstr m
        (c.expression.map fun t =>
          EItem.lin t.coefficient (match t.varName with
            | some v => mGet m.vars v
            | none => none))
        c.sense (.num c.value)).map (·.1)) m
    .ok m

/-- `Model.readLPFormat` (wraps `fromLPFormat` on the model itself). -/
def readLPFormat (m : Model) (lpString : String) : Except String Model :=
  fromLPFormat m lpString

/-! ## Claim theorems: the format round trip and the Sense rule -/

/-- `maximize x subject to x <= 3`, all bounds default: the simplest
linear model. -/
def c1Model : Model :=
  { Model.init with
    vars := [("x", wVarX)]
    objective := { expression := { cst := 0, terms := [.lin 1 wVarX] },
                   sense := "MAXIMIZE" }
    constraints := [{ lhs := { cst := 0, terms := [.lin 1 wVarX] },
                      comparison := "<=", rhs := 3 }] }

def c1VarB : Var :=
  { name := "x", lb := .num 1, ub := .num 4, vtype := "CONTINUOUS" }

/-- The same model with a non-default bound on `x`, so that the writer
emits a `Bounds` line. -/
def c1ModelB : Model :=
  { Model.init with
    vars := [("x", c1VarB)]
    objective := { expression := { cst := 0, terms := [.lin 1 c1VarB] },
                   sense := "MAXIMIZE" }
    constraints := [{ lhs := { cst := 0, terms := [.lin 1 c1VarB] },
                      comparison := "<=", rhs := 3 }] }

attribute [local semireducible] Rat.add Rat.sub Rat.mul Rat.inv

/-- C1.  The writer unconditionally emits a `Bounds` section header even
when no variable has a bound line, while the grammar's `Bounds` rule
demands at least one `Bound` after the header and the `End` literal then
cannot match; so parsing the writer's output of the simplest purely
linear model (`maximize x` subject to `x <= 3`, default bounds) fails
with a parse error instead of reproducing the model.  When a bound line
is present the very same pipeline reproduces the model's canonical
objective, constraint list, bounds and kinds exactly, isolating the
dangling-`Bounds`-header emission as the defect. -/
theorem C1_roundtrip_bug :
    isQuadratic c1Model = false ∧
    toLPFormat c1Model =
      "Maximize\nobj: 1 x\nSubject To\n c1: 1 x <= 3\nBounds\nEnd\n" ∧
    pLPFile (toLPFormat c1Model).data = none ∧
    fromLPFormat Model.init (toLPFormat c1Model) = .error "ParseError" ∧
    (fromLPFormat Model.init (toLPFormat c1ModelB)).map
        (fun m2 => (m2.objective.expression,
          m2.constraints.map fun c => (c.lhs, c.comparison, c.rhs), m2.vars)) =
      .ok (c1ModelB.objective.expression,
        c1ModelB.constraints.map fun c => (c.lhs, c.comparison, c.rhs),
        c1ModelB.vars) :=
  ⟨by rfl, by rfl, by rfl, by rfl, by rfl⟩

/-- C8.  The `ConstraintSense` action is attached only to the final
`"<"` alternative, so only `<` is normalized to `<=`; `=<` and `=>` are
returned unnormalized — and in fact can never match, because the plain
`"="` alternative is tried before them and consumes the `=`, after which the
constraint's number fails to parse; a bare `>` is not an alternative at
all.  Consequently `<`, `<=`, `=`, `>=` work, while constraint lines
using `>`, `=<` or `=>` make the whole file a parse error. -/
theorem C8_sense_rule_bug :
    pSense "<= 5".data = some ("<=", " 5".data) ∧
    pSense ">= 5".data = some (">=", " 5".data) ∧
    pSense "= 5".data = some ("=", " 5".data) ∧
    pSense "< 5".data = some ("<=", " 5".data) ∧
    pSense "=< 5".data = some ("=", "< 5".data) ∧
    pSense "=> 5".data = some ("=", "> 5".data) ∧
    pSense "> 5".data = none ∧
    (pLPFile "Maximize\nobj: 1 x\nSubject To\n c1: 1 x < 5\nBounds\n 1 <= x <= 3\nEnd\n".data).map
      (fun p => p.constraints.map (·.sense)) = some ["<="] ∧
    pLPFile "Maximize\nobj: 1 x\nSubject To\n c1: 1 x > 5\nBounds\n 1 <= x <= 3\nEnd\n".data = none ∧
    pLPFile "Maximize\nobj: 1 x\nSubject To\n c1: 1 x =< 5\nBounds\n 1 <= x <= 3\nEnd\n".data = none ∧
    pLPFile "Maximize\nobj: 1 x\nSubject To\n c1: 1 x => 5\nBounds\n 1 <= x <= 3\nEnd\n".data = none :=
  ⟨by rfl, by rfl, by rfl, by rfl, by rfl, by rfl, by rfl, by rfl, by rfl,
    by rfl, by rfl⟩

end LPModel
